import Mathlib

/-!
Verification development for the JSON-to-graph ingestion pipeline
(src/gnn/json_graph_loader.py and src/gnn/data_loader.py).

The Python code is shallowly embedded:

* `Json` is the parsed JSON value handed to `AsyncJSONToNeo4j.process_json`
  (objects keep key order, as Python dicts do; numbers are modelled as
  integers, which covers every number appearing in the properties the
  mapper builds).
* `Intent` is one emitted store operation: a `create_node` call or a
  `create_relationship` call, recorded with the exact arguments the code
  passes.
* `runStack` is the explicit-stack loop of `process_json`: frames are
  pushed with `stack.append` and taken with `stack.pop`, i.e. LIFO; the
  loop is modelled with an explicit fuel argument that is proved
  sufficient (`runStack_eq_emit`), so the definition is executable.
* `Store`, `applyNode`, `applyRel` model the Cypher statements issued by
  `create_node` / `create_relationship`: MERGE on a node pattern matches
  any node carrying at least the listed properties with the given label,
  and creates a node with exactly the listed properties otherwise;
  the relationship statement MATCHes both endpoint patterns and MERGEs
  one edge per matched pair, silently doing nothing when a pattern
  matches no node.
-/

/-- A JSON primitive (string, number, boolean, null); numbers are modelled
as integers. -/
inductive Prim where
  | s (v : String)
  | i (v : Int)
  | b (v : Bool)
  | null
deriving DecidableEq, Repr

/-- A Python dict with string keys and primitive values, in insertion
order; this models the `properties` dictionaries built by `process_json`. -/
abbrev Props := List (String × Prim)

/-- Python dict assignment `d[k] = v`: overwrite in place if the key is
present, otherwise append, preserving insertion order. -/
def dictSet (d : Props) (k : String) (v : Prim) : Props :=
  if d.any (fun kv => kv.1 = k) then d.map (fun kv => if kv.1 = k then (k, v) else kv)
  else d ++ [(k, v)]

/-- A parsed JSON value: object (ordered fields), array, or primitive. -/
inductive Json where
  | obj (fields : List (String × Json))
  | arr (elems : List Json)
  | prim (p : Prim)

/-- One store operation issued by `process_json`: the arguments of a
`create_node` call or of a `create_relationship` call. -/
inductive Intent where
  | node (label : String) (properties : Props)
  | rel (from_label : String) (from_properties : Props)
        (to_label : String) (to_properties : Props) (rel_type : String)
deriving DecidableEq, Repr

/-- Python `str.capitalize()`: first character uppercased, the rest
lowercased (ASCII behaviour, which covers the keys used here). -/
def pyCapitalize (s : String) : String :=
  match s.data with
  | [] => ""
  | c :: cs => String.mk (Char.toUpper c :: cs.map Char.toLower)

/-- Python `rel_type or "HAS"`: `None` and the empty string are falsy. -/
def pyOrHAS : Option String → String
  | none => "HAS"
  | some s => if s = "" then "HAS" else s

/-- The shape tests of lines 129-131: `is_dict`, `is_list`, and
`is_primitive` (anything that is neither dict nor list). -/
def is_dict : Json → Bool
  | .obj _ => true
  | _ => false

def is_list : Json → Bool
  | .arr _ => true
  | _ => false

def is_primitive (v : Json) : Bool :=
  !(is_dict v || is_list v)

/-- One stack entry of `process_json`:
`(parent_label, parent_properties, rel_type, current_data)`. -/
structure Frame where
  parent_label : String
  parent_properties : Props
  rel_type : Option String
  current_data : Json

-- Structural size of a JSON value (one unit per constructor); used as
-- the termination measure for the traversal.
mutual
def jsize : Json → Nat
  | .obj fields => 1 + jsizeFields fields
  | .arr elems => 1 + jsizeElems elems
  | .prim _ => 1
def jsizeFields : List (String × Json) → Nat
  | [] => 0
  | (_, v) :: rest => jsize v + jsizeFields rest
def jsizeElems : List Json → Nat
  | [] => 0
  | v :: rest => jsize v + jsizeElems rest
end

theorem jsize_pos (v : Json) : 1 ≤ jsize v := by
  cases v <;> simp [jsize]

theorem jsizeFields_eq (fields : List (String × Json)) :
    jsizeFields fields = (fields.map (fun kv => jsize kv.2)).sum := by
  induction fields with
  | nil => simp [jsizeFields]
  | cons kv rest ih => rw [show kv = (kv.1, kv.2) from rfl]; simp [jsizeFields, ih]

theorem jsizeElems_eq (elems : List Json) :
    jsizeElems elems = (elems.map jsize).sum := by
  induction elems with
  | nil => simp [jsizeElems]
  | cons v rest ih => simp [jsizeElems, ih]

/-- The two intents (`create_node`, then `create_relationship`) issued for
one key of a dict frame, lines 140-164 of json_graph_loader.py. -/
def entryIntents (pl : String) (pp : Props) (rt : Option String)
    (key : String) (value : Json) : List Intent :=
  match value with
  | .prim p =>
      let node_properties := dictSet [("name", Prim.s key)] "value" p
      [Intent.node (pyCapitalize key) node_properties,
       Intent.rel pl pp (pyCapitalize key) node_properties (pyOrHAS rt)]
  | _ =>
      [Intent.node (pyCapitalize key) [("name", Prim.s key)],
       Intent.rel pl pp (pyCapitalize key) [("name", Prim.s key)] (pyOrHAS rt)]

/-- The two intents issued for one list element, lines 167-192 of
json_graph_loader.py; the list branch always passes the literal "HAS". -/
def itemIntents (pl : String) (pp : Props) (idx : Nat) (item : Json) : List Intent :=
  match item with
  | .prim p =>
      let node_properties := dictSet [("index", Prim.i (Int.ofNat idx))] "value" p
      [Intent.node (pl ++ "Item") node_properties,
       Intent.rel pl pp (pl ++ "Item") node_properties "HAS"]
  | _ =>
      [Intent.node (pl ++ "Item") [("index", Prim.i (Int.ofNat idx))],
       Intent.rel pl pp (pl ++ "Item") [("index", Prim.i (Int.ofNat idx))] "HAS"]

/-- All intents emitted while one frame is processed by the loop body of
`process_json` (before any pushed child frame is popped). -/
def frameImm (f : Frame) : List Intent :=
  match f.current_data with
  | .obj fields =>
      fields.flatMap (fun kv => entryIntents f.parent_label f.parent_properties f.rel_type kv.1 kv.2)
  | .arr elems =>
      elems.enum.flatMap (fun iv => itemIntents f.parent_label f.parent_properties iv.1 iv.2)
  | .prim p =>
      if f.parent_label ≠ "" then [Intent.node f.parent_label (dictSet f.parent_properties "value" p)]
      else []

/-- The frames pushed while one frame is processed, in push order: one per
non-primitive dict value or list element. -/
def frameChildren (f : Frame) : List Frame :=
  match f.current_data with
  | .obj fields => fields.filterMap (fun kv =>
      match kv.2 with
      | .prim _ => none
      | v => some ⟨pyCapitalize kv.1, [("name", Prim.s kv.1)], some "HAS", v⟩)
  | .arr elems => elems.enum.filterMap (fun iv =>
      match iv.2 with
      | .prim _ => none
      | v => some ⟨f.parent_label ++ "Item", [("index", Prim.i (Int.ofNat iv.1))], some "HAS", v⟩)
  | .prim _ => []

theorem objChildren_weight_le (fields : List (String × Json)) (g : (String × Json) → Option Frame)
    (hg : ∀ kv fr, g kv = some fr → fr.current_data = kv.2) :
    ((fields.filterMap g).map (fun fr => jsize fr.current_data)).sum ≤ jsizeFields fields := by
  induction fields with
  | nil => simp
  | cons kv rest ih =>
      rw [List.filterMap_cons]
      rcases kv with ⟨k, v⟩
      cases hc : g (k, v) with
      | none =>
          simp only [jsizeFields]
          omega
      | some fr =>
          have hd := hg (k, v) fr hc
          simp only [List.map_cons, List.sum_cons, jsizeFields, hd]
          omega

theorem arrChildren_weight_le (l : List (Nat × Json)) (g : (Nat × Json) → Option Frame)
    (hg : ∀ iv fr, g iv = some fr → fr.current_data = iv.2) :
    ((l.filterMap g).map (fun fr => jsize fr.current_data)).sum ≤
      (l.map (fun iv => jsize iv.2)).sum := by
  induction l with
  | nil => simp
  | cons iv rest ih =>
      rw [List.filterMap_cons]
      rcases iv with ⟨i, v⟩
      cases hc : g (i, v) with
      | none =>
          simp only [List.map_cons, List.sum_cons]
          omega
      | some fr =>
          have hd := hg (i, v) fr hc
          simp only [List.map_cons, List.sum_cons, hd]
          omega

theorem sum_children_lt (f : Frame) :
    ((frameChildren f).map (fun g => jsize g.current_data)).sum < jsize f.current_data := by
  cases hd : f.current_data with
  | obj fields =>
      have h := objChildren_weight_le fields
        (fun kv => match kv.2 with
          | .prim _ => none
          | v => some ⟨pyCapitalize kv.1, [("name", Prim.s kv.1)], some "HAS", v⟩)
        (by intro kv fr hfr; cases hv : kv.2 <;> simp [hv] at hfr <;> simp [← hfr])
      simp only [frameChildren, hd, jsize]
      omega
  | arr elems =>
      have h := arrChildren_weight_le elems.enum
        (fun iv => match iv.2 with
          | .prim _ => none
          | v => some ⟨f.parent_label ++ "Item", [("index", Prim.i (Int.ofNat iv.1))], some "HAS", v⟩)
        (by intro iv fr hfr; cases hv : iv.2 <;> simp [hv] at hfr <;> simp [← hfr])
      have henum : (elems.enum.map (fun iv => jsize iv.2)).sum = (elems.map jsize).sum := by
        have : elems.enum.map (fun iv => jsize iv.2) = elems.map jsize := by
          have h2 : elems.enum.map (fun iv => jsize iv.2)
              = (elems.enum.map Prod.snd).map jsize := by
            rw [List.map_map]; rfl
          rw [h2, List.enum_map_snd]
        rw [this]
      simp only [frameChildren, hd, jsize, jsizeElems_eq]
      omega
  | prim p =>
      simp [frameChildren, hd, jsize]

/-- Total size of the JSON values on the stack; each loop iteration
strictly decreases it, so it bounds the number of iterations. -/
def stackWeight (s : List Frame) : Nat := (s.map (fun f => jsize f.current_data)).sum

/-- The `while stack:` loop of `process_json`, with an explicit fuel
bound (`runStack` instantiates the fuel with `stackWeight`, which
`runStackF_eq_emit` proves sufficient).  `stack.pop()` takes the most
recently pushed frame, so the frames pushed during one iteration are
prepended in reverse push order. -/
def runStackF : Nat → List Frame → List Intent
  | _, [] => []
  | 0, _ :: _ => []
  | fuel + 1, f :: rest => frameImm f ++ runStackF fuel ((frameChildren f).reverse ++ rest)

/-- The stack loop of `process_json`, started on a given stack. -/
def runStack (s : List Frame) : List Intent := runStackF (stackWeight s) s

/-- Properties of the synthetic root node, line 126. -/
def rootProperties : Props := [("name", Prim.s "root")]

/-- The full intent sequence emitted by `process_json` for one document:
the root node intent (line 134) followed by the stack traversal started
on the single initial frame (line 127). -/
def processJsonIntents (data : Json) : List Intent :=
  Intent.node "Root" rootProperties :: runStack [⟨"Root", rootProperties, none, data⟩]

theorem mem_children_jsize_lt (f : Frame) (g : Frame) (hg : g ∈ frameChildren f) :
    jsize g.current_data < jsize f.current_data := by
  have h1 : jsize g.current_data ∈ (frameChildren f).map (fun g => jsize g.current_data) :=
    List.mem_map_of_mem _ hg
  have h2 := List.single_le_sum (l := (frameChildren f).map (fun g => jsize g.current_data))
    (fun _ _ => Nat.zero_le _) _ h1
  have h3 := sum_children_lt f
  omega

/-- Recursive characterisation of the traversal: the intents of one frame
are its immediate intents followed by the fully expanded child subtrees in
reverse push order (because the work list is a LIFO stack). -/
def emitFrame (f : Frame) : List Intent :=
  frameImm f ++ ((frameChildren f).reverse.attach.map (fun g => emitFrame g.val)).flatten
termination_by jsize f.current_data
decreasing_by
  have hg : g.val ∈ frameChildren f := List.mem_reverse.mp g.property
  exact mem_children_jsize_lt f g.val hg

theorem emitFrame_def (f : Frame) :
    emitFrame f = frameImm f ++ ((frameChildren f).reverse.map emitFrame).flatten := by
  rw [emitFrame]
  congr 1
  congr 1
  have : ((frameChildren f).reverse.attach.map (fun g => emitFrame g.val))
      = (frameChildren f).reverse.map emitFrame := by
    simp
  rw [this]

theorem stackWeight_cons (f : Frame) (rest : List Frame) :
    stackWeight (f :: rest) = jsize f.current_data + stackWeight rest := by
  simp [stackWeight]

theorem stackWeight_append (a b : List Frame) :
    stackWeight (a ++ b) = stackWeight a + stackWeight b := by
  simp [stackWeight]

theorem stackWeight_reverse (a : List Frame) :
    stackWeight a.reverse = stackWeight a := by
  simp [stackWeight, List.sum_reverse]

theorem runStackF_eq_emit (fuel : Nat) :
    ∀ s : List Frame, stackWeight s ≤ fuel → runStackF fuel s = (s.map emitFrame).flatten := by
  induction fuel with
  | zero =>
      intro s hs
      cases s with
      | nil => simp [runStackF]
      | cons f rest =>
          exfalso
          have := jsize_pos f.current_data
          rw [stackWeight_cons] at hs
          omega
  | succ n ih =>
      intro s hs
      cases s with
      | nil => simp [runStackF]
      | cons f rest =>
          rw [runStackF]
          have hlt : stackWeight ((frameChildren f).reverse ++ rest) ≤ n := by
            rw [stackWeight_append, stackWeight_reverse]
            have h1 := sum_children_lt f
            rw [stackWeight_cons] at hs
            have : stackWeight (frameChildren f) =
                ((frameChildren f).map (fun g => jsize g.current_data)).sum := rfl
            omega
          rw [ih _ hlt]
          simp only [List.map_cons, List.map_append, List.flatten_cons, List.flatten_append]
          rw [emitFrame_def]
          simp [List.append_assoc]

theorem runStack_eq_emit (s : List Frame) : runStack s = (s.map emitFrame).flatten :=
  runStackF_eq_emit (stackWeight s) s (Nat.le_refl _)

theorem runStack_single (f : Frame) : runStack [f] = emitFrame f := by
  rw [runStack_eq_emit]
  simp

/-- The emitted sequence, as the root intent followed by the recursive
expansion of the initial frame. -/
theorem processJsonIntents_eq (data : Json) :
    processJsonIntents data
      = Intent.node "Root" rootProperties :: emitFrame ⟨"Root", rootProperties, none, data⟩ := by
  rw [processJsonIntents, runStack_single]

/-- Cypher pattern match used by both generated statements: a stored node
matches the pattern `(n:label {props})` when it carries the label and each
listed property with exactly the listed value; properties of the node not
listed in the pattern are not constrained. -/
def nodeMatches (spec : String × Props) (n : String × Props) : Bool :=
  spec.1 = n.1 && spec.2.all (fun kv => n.2.lookup kv.1 = some kv.2)

/-- The external graph store, as observed through the two generated
statements: nodes in creation order (a node carries exactly the label and
properties of the MERGE that created it), and edges as index pairs with a
relationship type. -/
structure Store where
  nodes : List (String × Props)
  edges : List (Nat × Nat × String)
deriving DecidableEq, Repr

def emptyStore : Store := ⟨[], []⟩

/-- Effect of `create_node` (MERGE of a node pattern): create a node with
exactly the listed properties unless some node already matches. -/
def applyNode (st : Store) (label : String) (properties : Props) : Store :=
  if st.nodes.any (fun n => nodeMatches (label, properties) n) then st
  else { st with nodes := st.nodes ++ [(label, properties)] }

/-- Indices of the stored nodes matching a pattern, in store order. -/
def matchIdxs (st : Store) (spec : String × Props) : List Nat :=
  st.nodes.enum.filterMap (fun en => if nodeMatches spec en.2 then some en.1 else none)

def insertEdge (es : List (Nat × Nat × String)) (e : Nat × Nat × String) :
    List (Nat × Nat × String) :=
  if e ∈ es then es else es ++ [e]

/-- Effect of `create_relationship` (MATCH both endpoint patterns, MERGE
the edge): one edge per matched endpoint pair, skipping pairs whose edge
already exists; when either pattern matches nothing, no row is produced
and the statement silently does nothing. -/
def applyRel (st : Store) (fl : String) (fp : Props) (tl : String) (tp : Props)
    (ty : String) : Store :=
  let pairs := (matchIdxs st (fl, fp)).flatMap (fun i => (matchIdxs st (tl, tp)).map (fun j => (i, j)))
  { st with edges := pairs.foldl (fun es ij => insertEdge es (ij.1, ij.2, ty)) st.edges }

def applyIntent (st : Store) : Intent → Store
  | .node l p => applyNode st l p
  | .rel fl fp tl tp ty => applyRel st fl fp tl tp ty

/-- Replay of an intent sequence against a store state, in order. -/
def applySeq (st : Store) (l : List Intent) : Store := l.foldl applyIntent st

/-- Node identity as used by the store statements: the (label, properties)
pair. -/
abbrev Tuple := String × Props

def rootTuple : Tuple := ("Root", rootProperties)

/-- The (label, properties) identity of the node representing an object
entry `key: value` in the containment structure of a document. -/
def entryTuple (k : String) (v : Json) : Tuple :=
  match v with
  | .prim p => (pyCapitalize k, dictSet [("name", Prim.s k)] "value" p)
  | _ => (pyCapitalize k, [("name", Prim.s k)])

/-- The (label, properties) identity of the node representing an array
element at a given index, under a parent labelled `pl`. -/
def itemTuple (pl : String) (idx : Nat) (v : Json) : Tuple :=
  match v with
  | .prim p => (pl ++ "Item", dictSet [("index", Prim.i (Int.ofNat idx))] "value" p)
  | _ => (pl ++ "Item", [("index", Prim.i (Int.ofNat idx))])

-- Containment structure of a document, in document order: one node per
-- object entry or array element (primitives are folded into that node),
-- each linked to the node of its containing entry, with the Root node as
-- the ancestor of the top level.
mutual
def cNodesFrom (pl : String) : Json → List Tuple
  | .obj fields => cNodesObj fields
  | .arr elems => cNodesArr pl 0 elems
  | .prim _ => []
def cNodesObj : List (String × Json) → List Tuple
  | [] => []
  | (k, v) :: rest => (entryTuple k v :: cNodesFrom (pyCapitalize k) v) ++ cNodesObj rest
def cNodesArr (pl : String) : Nat → List Json → List Tuple
  | _, [] => []
  | idx, v :: rest => (itemTuple pl idx v :: cNodesFrom (pl ++ "Item") v) ++ cNodesArr pl (idx + 1) rest
end

mutual
def cEdgesFrom (pt : Tuple) (pl : String) : Json → List (Tuple × Tuple)
  | .obj fields => cEdgesObj pt fields
  | .arr elems => cEdgesArr pt pl 0 elems
  | .prim _ => []
def cEdgesObj (pt : Tuple) : List (String × Json) → List (Tuple × Tuple)
  | [] => []
  | (k, v) :: rest =>
      ((pt, entryTuple k v) :: cEdgesFrom (entryTuple k v) (pyCapitalize k) v) ++ cEdgesObj pt rest
def cEdgesArr (pt : Tuple) (pl : String) : Nat → List Json → List (Tuple × Tuple)
  | _, [] => []
  | idx, v :: rest =>
      ((pt, itemTuple pl idx v) :: cEdgesFrom (itemTuple pl idx v) (pl ++ "Item") v)
        ++ cEdgesArr pt pl (idx + 1) rest
end

/-- All containment-node identities of a document: the Root node followed
by one node per entry, in document order. -/
def cNodes (v : Json) : List Tuple := rootTuple :: cNodesFrom "Root" v

/-- All containment edges of a document, as (parent, child) identities in
document order. -/
def cEdges (v : Json) : List (Tuple × Tuple) := cEdgesFrom rootTuple "Root" v

-- Modelled from the words of the spec for the ordering claim: emission
-- in strict document order, where the subtree of an entry is expanded
-- immediately after the intents of the entry itself, keys in document
-- order and array elements in index order.  This is the order the spec
-- sentence describes; the source loop is compared against it.
mutual
/-- Document-order emission of the subtree below one frame, following the
spec wording rather than the source loop. -/
def docOrderFrom (pl : String) (pp : Props) (rt : Option String) : Json → List Intent
  | .obj fields => docOrderObj pl pp rt fields
  | .arr elems => docOrderArr pl pp 0 elems
  | .prim p => if pl ≠ "" then [Intent.node pl (dictSet pp "value" p)] else []
def docOrderObj (pl : String) (pp : Props) (rt : Option String) : List (String × Json) → List Intent
  | [] => []
  | (k, v) :: rest =>
      (entryIntents pl pp rt k v
        ++ (match v with
            | .prim _ => []
            | _ => docOrderFrom (pyCapitalize k) [("name", Prim.s k)] (some "HAS") v))
        ++ docOrderObj pl pp rt rest
def docOrderArr (pl : String) (pp : Props) : Nat → List Json → List Intent
  | _, [] => []
  | idx, v :: rest =>
      (itemIntents pl pp idx v
        ++ (match v with
            | .prim _ => []
            | _ => docOrderFrom (pl ++ "Item") [("index", Prim.i (Int.ofNat idx))] (some "HAS") v))
        ++ docOrderArr pl pp (idx + 1) rest
end

/-- Document-order emission of a whole document, root intent first. -/
def documentOrderEmission (data : Json) : List Intent :=
  Intent.node "Root" rootProperties :: docOrderFrom "Root" rootProperties none data

/-- The reconstructed store graph is a tree isomorphic to the containment
structure of the document, rooted at the Root node: a bijection between
containment positions and stored nodes that sends position 0 to the Root
node and carries containment edges exactly onto stored "HAS" edges. -/
def IsoContainment (v : Json) (st : Store) : Prop :=
  ∃ f : Fin (cNodes v).length → Fin st.nodes.length,
    Function.Bijective f ∧
    (∀ hr : 0 < (cNodes v).length, st.nodes.get (f ⟨0, hr⟩) = rootTuple) ∧
    (∀ i j : Fin (cNodes v).length,
      ((cNodes v).get i, (cNodes v).get j) ∈ cEdges v ↔
        ((f i : Nat), (f j : Nat), "HAS") ∈ st.edges)

/-- A relationship intent is supported by a set of already-seen intents
when node intents for both of its endpoints have been seen; node intents
are always supported. -/
def relOk (seen : List Intent) : Intent → Prop
  | .node _ _ => True
  | .rel fl fp tl tp _ => Intent.node fl fp ∈ seen ∧ Intent.node tl tp ∈ seen

/-- Every relationship intent of the sequence is supported by the given
prefix together with the intents emitted before it. -/
def SeqOk : List Intent → List Intent → Prop
  | _, [] => True
  | pre, i :: rest => relOk pre i ∧ SeqOk (pre ++ [i]) rest

theorem relOk_mono {s1 s2 : List Intent} (hsub : ∀ x ∈ s1, x ∈ s2) (i : Intent)
    (h : relOk s1 i) : relOk s2 i := by
  cases i with
  | node l p => trivial
  | rel fl fp tl tp ty => exact ⟨hsub _ h.1, hsub _ h.2⟩

theorem SeqOk_mono (l : List Intent) : ∀ {s1 s2 : List Intent},
    (∀ x ∈ s1, x ∈ s2) → SeqOk s1 l → SeqOk s2 l := by
  induction l with
  | nil => intro s1 s2 _ _; trivial
  | cons i rest ih =>
      intro s1 s2 hsub h
      refine ⟨relOk_mono hsub i h.1, ih ?_ h.2⟩
      intro x hx
      rcases List.mem_append.mp hx with h1 | h2
      · exact List.mem_append.mpr (Or.inl (hsub x h1))
      · exact List.mem_append.mpr (Or.inr h2)

theorem SeqOk_append {a b : List Intent} : ∀ {pre : List Intent},
    SeqOk pre (a ++ b) ↔ SeqOk pre a ∧ SeqOk (pre ++ a) b := by
  induction a with
  | nil => intro pre; simp [SeqOk]
  | cons i rest ih =>
      intro pre
      simp only [List.cons_append, SeqOk, List.append_eq]
      rw [ih]
      simp [List.append_assoc, and_assoc]

/-- Strong induction over frames along the child relation of the
traversal. -/
theorem frame_induction (P : Frame → Prop)
    (step : ∀ f, (∀ g, g ∈ frameChildren f → P g) → P f) : ∀ f, P f := by
  have key : ∀ n f, jsize f.current_data ≤ n → P f := by
    intro n
    induction n with
    | zero =>
        intro f hf
        have := jsize_pos f.current_data
        omega
    | succ n ih =>
        intro f hf
        apply step
        intro g hg
        apply ih
        have := mem_children_jsize_lt f g hg
        omega
  intro f
  exact key (jsize f.current_data) f (Nat.le_refl _)

theorem seqOk_pair {pre : List Intent} {pl L : String} {pp P : Props} {ty : String}
    (h : Intent.node pl pp ∈ pre) :
    SeqOk pre [Intent.node L P, Intent.rel pl pp L P ty] := by
  refine ⟨trivial, ⟨?_, ?_⟩, trivial⟩
  · exact List.mem_append.mpr (Or.inl h)
  · exact List.mem_append.mpr (Or.inr (List.mem_singleton.mpr rfl))

theorem seqOk_entryIntents {pre : List Intent} {pl : String} {pp : Props} {rt : Option String}
    {k : String} {v : Json} (h : Intent.node pl pp ∈ pre) :
    SeqOk pre (entryIntents pl pp rt k v) := by
  cases v <;> exact seqOk_pair h

theorem seqOk_itemIntents {pre : List Intent} {pl : String} {pp : Props}
    {idx : Nat} {v : Json} (h : Intent.node pl pp ∈ pre) :
    SeqOk pre (itemIntents pl pp idx v) := by
  cases v <;> exact seqOk_pair h

theorem seqOk_flatMap {α : Type} {pre : List Intent} {l : List α} {g : α → List Intent}
    (h : ∀ pre2, (∀ x ∈ pre, x ∈ pre2) → ∀ a ∈ l, SeqOk pre2 (g a)) :
    SeqOk pre (l.flatMap g) := by
  induction l generalizing pre with
  | nil => trivial
  | cons a rest ih =>
      rw [List.flatMap_cons, SeqOk_append]
      constructor
      · exact h pre (fun x hx => hx) a (List.mem_cons_self a rest)
      · apply ih
        intro pre2 hsub b hb
        exact h pre2 (fun x hx => hsub x (List.mem_append.mpr (Or.inl hx)))
          b (List.mem_cons_of_mem a hb)

theorem seqOk_frameImm {f : Frame} {pre : List Intent}
    (h : Intent.node f.parent_label f.parent_properties ∈ pre) :
    SeqOk pre (frameImm f) := by
  cases hd : f.current_data with
  | obj fields =>
      rw [frameImm, hd]
      apply seqOk_flatMap
      intro pre2 hsub kv _
      exact seqOk_entryIntents (hsub _ h)
  | arr elems =>
      rw [frameImm, hd]
      apply seqOk_flatMap
      intro pre2 hsub iv _
      exact seqOk_itemIntents (hsub _ h)
  | prim p =>
      rw [frameImm, hd]
      by_cases hpl : f.parent_label ≠ "" <;> simp [hpl, SeqOk, relOk]

theorem children_node_in_imm (f : Frame) (g : Frame) (hg : g ∈ frameChildren f) :
    Intent.node g.parent_label g.parent_properties ∈ frameImm f := by
  cases hd : f.current_data with
  | obj fields =>
      rw [frameChildren, hd] at hg
      rw [frameImm, hd]
      rcases List.mem_filterMap.mp hg with ⟨kv, hkv, hsome⟩
      apply List.mem_flatMap.mpr
      refine ⟨kv, hkv, ?_⟩
      cases hv : kv.2 with
      | prim p => rw [hv] at hsome; simp at hsome
      | obj fs2 =>
          rw [hv] at hsome
          simp only [Option.some.injEq] at hsome
          rw [← hsome]
          simp [entryIntents, hv]
      | arr es2 =>
          rw [hv] at hsome
          simp only [Option.some.injEq] at hsome
          rw [← hsome]
          simp [entryIntents, hv]
  | arr elems =>
      rw [frameChildren, hd] at hg
      rw [frameImm, hd]
      rcases List.mem_filterMap.mp hg with ⟨iv, hiv, hsome⟩
      apply List.mem_flatMap.mpr
      refine ⟨iv, hiv, ?_⟩
      cases hv : iv.2 with
      | prim p => rw [hv] at hsome; simp at hsome
      | obj fs2 =>
          rw [hv] at hsome
          simp only [Option.some.injEq] at hsome
          rw [← hsome]
          simp [itemIntents, hv]
      | arr es2 =>
          rw [hv] at hsome
          simp only [Option.some.injEq] at hsome
          rw [← hsome]
          simp [itemIntents, hv]
  | prim p =>
      rw [frameChildren, hd] at hg
      simp at hg

theorem seqOk_flatten_frames (fs : List Frame) : ∀ (pre : List Intent),
    (∀ g ∈ fs, Intent.node g.parent_label g.parent_properties ∈ pre) →
    (∀ g ∈ fs, ∀ pre2, Intent.node g.parent_label g.parent_properties ∈ pre2 →
      SeqOk pre2 (emitFrame g)) →
    SeqOk pre ((fs.map emitFrame).flatten) := by
  induction fs with
  | nil => intro pre _ _; trivial
  | cons g rest ih =>
      intro pre hin hrec
      rw [List.map_cons, List.flatten_cons, SeqOk_append]
      constructor
      · exact hrec g (List.mem_cons_self g rest) pre (hin g (List.mem_cons_self g rest))
      · apply ih
        · intro g2 hg2
          exact List.mem_append.mpr (Or.inl (hin g2 (List.mem_cons_of_mem g hg2)))
        · intro g2 hg2
          exact hrec g2 (List.mem_cons_of_mem g hg2)

theorem emitFrame_seqOk : ∀ (f : Frame) (pre : List Intent),
    Intent.node f.parent_label f.parent_properties ∈ pre → SeqOk pre (emitFrame f) := by
  apply frame_induction
    (P := fun f => ∀ pre, Intent.node f.parent_label f.parent_properties ∈ pre →
      SeqOk pre (emitFrame f))
  intro f ih pre hpre
  rw [emitFrame_def, SeqOk_append]
  constructor
  · exact seqOk_frameImm hpre
  · apply seqOk_flatten_frames
    · intro g hg
      have hg2 : g ∈ frameChildren f := List.mem_reverse.mp hg
      exact List.mem_append.mpr (Or.inr (children_node_in_imm f g hg2))
    · intro g hg
      exact ih g (List.mem_reverse.mp hg)

/-- The full emitted sequence of a document is internally supported: every
relationship is preceded by node intents for both endpoints. -/
theorem processJsonIntents_seqOk (v : Json) : SeqOk [] (processJsonIntents v) := by
  rw [processJsonIntents_eq]
  refine ⟨trivial, ?_⟩
  apply emitFrame_seqOk
  simp [rootProperties]

theorem seqOk_split : ∀ (l1 : List Intent) {pre l l2 : List Intent} {r : Intent},
    SeqOk pre l → l = l1 ++ r :: l2 → relOk (pre ++ l1) r := by
  intro l1
  induction l1 with
  | nil =>
      intro pre l l2 r hok heq
      subst heq
      simpa using hok.1
  | cons i rest ih =>
      intro pre l l2 r hok heq
      subst heq
      have h2 := hok.2
      have := ih h2 rfl
      simpa [List.append_assoc] using this

/-- A sequence made of adjacent blocks [node intent, relationship intent
whose target is that node]; the shape of everything emitted below the
root for container documents. -/
inductive PairedSeq : List Intent → Prop
  | nil : PairedSeq []
  | pair (l : String) (p : Props) (fl : String) (fp : Props) (ty : String) {rest : List Intent} :
      PairedSeq rest → PairedSeq (Intent.node l p :: Intent.rel fl fp l p ty :: rest)

theorem pairedSeq_append {a b : List Intent} (ha : PairedSeq a) (hb : PairedSeq b) :
    PairedSeq (a ++ b) := by
  induction ha with
  | nil => exact hb
  | pair l p fl fp ty hrest ih =>
      rw [List.cons_append, List.cons_append]
      exact PairedSeq.pair l p fl fp ty ih

theorem pairedSeq_entryIntents (pl : String) (pp : Props) (rt : Option String)
    (k : String) (v : Json) : PairedSeq (entryIntents pl pp rt k v) := by
  cases v <;> exact PairedSeq.pair _ _ _ _ _ PairedSeq.nil

theorem pairedSeq_itemIntents (pl : String) (pp : Props) (idx : Nat) (v : Json) :
    PairedSeq (itemIntents pl pp idx v) := by
  cases v <;> exact PairedSeq.pair _ _ _ _ _ PairedSeq.nil

theorem pairedSeq_flatMap {α : Type} (l : List α) (g : α → List Intent)
    (h : ∀ a ∈ l, PairedSeq (g a)) : PairedSeq (l.flatMap g) := by
  induction l with
  | nil => exact PairedSeq.nil
  | cons a rest ih =>
      rw [List.flatMap_cons]
      exact pairedSeq_append (h a (List.mem_cons_self a rest))
        (ih (fun b hb => h b (List.mem_cons_of_mem a hb)))

theorem children_container (f : Frame) (g : Frame) (hg : g ∈ frameChildren f) :
    is_primitive g.current_data = false := by
  cases hd : f.current_data with
  | obj fields =>
      rw [frameChildren, hd] at hg
      rcases List.mem_filterMap.mp hg with ⟨kv, _, hsome⟩
      cases hv : kv.2 with
      | prim p => rw [hv] at hsome; simp at hsome
      | obj fs2 =>
          rw [hv] at hsome
          simp only [Option.some.injEq] at hsome
          rw [← hsome]
          simp [is_primitive, is_dict, is_list]
      | arr es2 =>
          rw [hv] at hsome
          simp only [Option.some.injEq] at hsome
          rw [← hsome]
          simp [is_primitive, is_dict, is_list]
  | arr elems =>
      rw [frameChildren, hd] at hg
      rcases List.mem_filterMap.mp hg with ⟨iv, _, hsome⟩
      cases hv : iv.2 with
      | prim p => rw [hv] at hsome; simp at hsome
      | obj fs2 =>
          rw [hv] at hsome
          simp only [Option.some.injEq] at hsome
          rw [← hsome]
          simp [is_primitive, is_dict, is_list]
      | arr es2 =>
          rw [hv] at hsome
          simp only [Option.some.injEq] at hsome
          rw [← hsome]
          simp [is_primitive, is_dict, is_list]
  | prim p =>
      rw [frameChildren, hd] at hg
      simp at hg

theorem pairedSeq_frameImm (f : Frame) (hf : is_primitive f.current_data = false) :
    PairedSeq (frameImm f) := by
  cases hd : f.current_data with
  | obj fields =>
      rw [frameImm, hd]
      exact pairedSeq_flatMap _ _ (fun kv _ => pairedSeq_entryIntents _ _ _ _ _)
  | arr elems =>
      rw [frameImm, hd]
      exact pairedSeq_flatMap _ _ (fun iv _ => pairedSeq_itemIntents _ _ _ _)
  | prim p =>
      rw [hd] at hf
      simp [is_primitive, is_dict, is_list] at hf

theorem pairedSeq_flatten (L : List (List Intent)) (h : ∀ l ∈ L, PairedSeq l) :
    PairedSeq L.flatten := by
  induction L with
  | nil => exact PairedSeq.nil
  | cons a rest ih =>
      rw [List.flatten_cons]
      exact pairedSeq_append (h a (List.mem_cons_self a rest))
        (ih (fun b hb => h b (List.mem_cons_of_mem a hb)))

theorem emitFrame_paired : ∀ f : Frame, is_primitive f.current_data = false →
    PairedSeq (emitFrame f) := by
  apply frame_induction (P := fun f => is_primitive f.current_data = false → PairedSeq (emitFrame f))
  intro f ih hf
  rw [emitFrame_def]
  apply pairedSeq_append (pairedSeq_frameImm f hf)
  apply pairedSeq_flatten
  intro l hl
  rcases List.mem_map.mp hl with ⟨g, hg, hgl⟩
  rw [← hgl]
  have hg2 : g ∈ frameChildren f := List.mem_reverse.mp hg
  exact ih g hg2 (children_container f g hg2)

/-- For container documents, everything after the initial root intent is a
sequence of adjacent node/relationship pairs. -/
theorem processJsonIntents_paired (v : Json) (hv : is_primitive v = false) :
    ∃ L, processJsonIntents v = Intent.node "Root" rootProperties :: L ∧ PairedSeq L := by
  refine ⟨emitFrame ⟨"Root", rootProperties, none, v⟩, processJsonIntents_eq v, ?_⟩
  exact emitFrame_paired _ hv

theorem pairedSeq_rel_preceded {L : List Intent} (h : PairedSeq L) :
    ∀ (j : Nat) (fl : String) (fp : Props) (tl : String) (tp : Props) (ty : String),
      L.get? j = some (Intent.rel fl fp tl tp ty) →
      ∃ j0, j = j0 + 1 ∧ L.get? j0 = some (Intent.node tl tp) := by
  induction h with
  | nil => intro j fl fp tl tp ty hj; simp at hj
  | pair l p fl0 fp0 ty0 hrest ih =>
      intro j fl fp tl tp ty hj
      match j with
      | 0 => simp at hj
      | 1 =>
          simp only [List.get?_cons_succ, List.get?_cons_zero, Option.some.injEq] at hj
          obtain ⟨h1, h2, h3, h4, h5⟩ := Intent.rel.inj hj
          refine ⟨0, rfl, ?_⟩
          simp only [List.get?_cons_zero, Option.some.injEq]
          rw [← h3, ← h4]
      | j0 + 2 =>
          simp only [List.get?_cons_succ] at hj
          rcases ih j0 fl fp tl tp ty hj with ⟨j1, hj1, hget⟩
          refine ⟨j1 + 2, by omega, ?_⟩
          simp only [List.get?_cons_succ]
          exact hget

theorem pairedSeq_node_followed {L : List Intent} (h : PairedSeq L) :
    ∀ (i : Nat) (l : String) (p : Props),
      L.get? i = some (Intent.node l p) →
      ∃ fl fp ty, L.get? (i + 1) = some (Intent.rel fl fp l p ty) := by
  induction h with
  | nil => intro i l p hi; simp at hi
  | pair l0 p0 fl0 fp0 ty0 hrest ih =>
      intro i l p hi
      match i with
      | 0 =>
          simp only [List.get?_cons_zero, Option.some.injEq] at hi
          obtain ⟨h1, h2⟩ := Intent.node.inj hi
          refine ⟨fl0, fp0, ty0, ?_⟩
          simp only [List.get?_cons_succ, List.get?_cons_zero]
          rw [h1, h2]
      | 1 => simp at hi
      | i0 + 2 =>
          simp only [List.get?_cons_succ] at hi
          rcases ih i0 l p hi with ⟨fl, fp, ty, hget⟩
          exact ⟨fl, fp, ty, by simp only [List.get?_cons_succ]; exact hget⟩

/-- Tuples of the node intents of a sequence, in emission order. -/
def nodeTuples (l : List Intent) : List Tuple :=
  l.filterMap (fun i => match i with
    | .node lbl props => some (lbl, props)
    | .rel _ _ _ _ _ => none)

/-- Endpoint tuples and type of the relationship intents of a sequence, in
emission order. -/
def relTuples (l : List Intent) : List (Tuple × Tuple × String) :=
  l.filterMap (fun i => match i with
    | .node _ _ => none
    | .rel fl fp tl tp ty => some ((fl, fp), (tl, tp), ty))

theorem flatMap_singleton_eq {α β : Type} (l : List α) (f : α → β) :
    l.flatMap (fun x => [f x]) = l.map f := by
  induction l with
  | nil => rfl
  | cons a rest ih => simp only [List.flatMap_cons, List.map_cons, List.singleton_append, ih]

theorem flatten_reverse_perm {α : Type} (L : List (List α)) :
    List.Perm L.reverse.flatten L.flatten := by
  induction L with
  | nil => simp
  | cons a rest ih =>
      simp only [List.reverse_cons, List.flatten_append, List.flatten_cons]
      have h1 : List.Perm (rest.reverse.flatten ++ [a].flatten) (rest.flatten ++ a) := by
        simpa using ih.append_right a
      exact h1.trans List.perm_append_comm

theorem flatten_forall2_perm {α : Type} {L1 L2 : List (List α)}
    (h : List.Forall₂ List.Perm L1 L2) : List.Perm L1.flatten L2.flatten := by
  induction h with
  | nil => rfl
  | cons h1 h2 ih => simpa using h1.append ih

theorem forall2_map_map {α β : Type} (l : List α) (F G : α → List β)
    (h : ∀ a ∈ l, List.Perm (F a) (G a)) : List.Forall₂ List.Perm (l.map F) (l.map G) := by
  induction l with
  | nil => exact List.Forall₂.nil
  | cons a rest ih =>
      exact List.Forall₂.cons (h a (List.mem_cons_self a rest))
        (ih (fun b hb => h b (List.mem_cons_of_mem a hb)))

theorem map_append_flatMap_perm {α β : Type} (l : List α) (g1 : α → β) (g2 : α → List β) :
    List.Perm (l.map g1 ++ l.flatMap g2) (l.flatMap (fun a => g1 a :: g2 a)) := by
  induction l with
  | nil => simp
  | cons a rest ih =>
      simp only [List.map_cons, List.flatMap_cons, List.cons_append]
      refine List.Perm.cons _ ?_
      have h1 : List.Perm (rest.map g1 ++ (g2 a ++ rest.flatMap g2))
          ((rest.map g1 ++ g2 a) ++ rest.flatMap g2) := by
        rw [List.append_assoc]
      have h2 : List.Perm ((rest.map g1 ++ g2 a) ++ rest.flatMap g2)
          ((g2 a ++ rest.map g1) ++ rest.flatMap g2) :=
        (List.perm_append_comm).append_right _
      have h3 : List.Perm ((g2 a ++ rest.map g1) ++ rest.flatMap g2)
          (g2 a ++ (rest.map g1 ++ rest.flatMap g2)) := by
        rw [List.append_assoc]
      exact ((h1.trans h2).trans h3).trans (ih.append_left _)

theorem flatten_map_filterMap_eq {α X : Type} (l : List α) (sel : α → Option Frame)
    (F : Frame → List X) (cn : α → List X)
    (h : ∀ a ∈ l, (sel a = none → cn a = []) ∧ (∀ fr, sel a = some fr → F fr = cn a)) :
    ((l.filterMap sel).map F).flatten = l.flatMap cn := by
  induction l with
  | nil => rfl
  | cons a rest ih =>
      cases hc : sel a with
      | none =>
          rw [List.flatMap_cons, (h a (List.mem_cons_self a rest)).1 hc]
          simp only [List.filterMap_cons, hc, List.nil_append]
          exact ih (fun b hb => h b (List.mem_cons_of_mem a hb))
      | some fr =>
          rw [List.flatMap_cons, ← ((h a (List.mem_cons_self a rest)).2 fr hc)]
          simp only [List.filterMap_cons, hc, List.map_cons, List.flatten_cons]
          rw [ih (fun b hb => h b (List.mem_cons_of_mem a hb))]

/-- Node-tuple and relationship-pair projections of the emission. -/
theorem nodeTuples_append (a b : List Intent) :
    nodeTuples (a ++ b) = nodeTuples a ++ nodeTuples b := by
  simp only [nodeTuples, List.filterMap_append]

theorem relTuples_append (a b : List Intent) :
    relTuples (a ++ b) = relTuples a ++ relTuples b := by
  simp only [relTuples, List.filterMap_append]

/-- Endpoint tuple pairs of the relationship intents, in emission order. -/
def relPairs (l : List Intent) : List (Tuple × Tuple) :=
  (relTuples l).map (fun x => (x.1, x.2.1))

theorem relPairs_append (a b : List Intent) :
    relPairs (a ++ b) = relPairs a ++ relPairs b := by
  simp only [relPairs, relTuples_append, List.map_append]

theorem nodeTuples_flatten (L : List (List Intent)) :
    nodeTuples L.flatten = (L.map nodeTuples).flatten := by
  induction L with
  | nil => rfl
  | cons a rest ih =>
      simp only [List.flatten_cons, nodeTuples_append, List.map_cons, ih]

theorem relPairs_flatten (L : List (List Intent)) :
    relPairs L.flatten = (L.map relPairs).flatten := by
  induction L with
  | nil => rfl
  | cons a rest ih =>
      simp only [List.flatten_cons, relPairs_append, List.map_cons, ih]

theorem nodeTuples_flatMap {α : Type} (l : List α) (g : α → List Intent) :
    nodeTuples (l.flatMap g) = l.flatMap (fun a => nodeTuples (g a)) := by
  induction l with
  | nil => rfl
  | cons a rest ih =>
      simp only [List.flatMap_cons, nodeTuples_append, ih]

theorem relPairs_flatMap {α : Type} (l : List α) (g : α → List Intent) :
    relPairs (l.flatMap g) = l.flatMap (fun a => relPairs (g a)) := by
  induction l with
  | nil => rfl
  | cons a rest ih =>
      simp only [List.flatMap_cons, relPairs_append, ih]

theorem relTuples_flatMap {α : Type} (l : List α) (g : α → List Intent) :
    relTuples (l.flatMap g) = l.flatMap (fun a => relTuples (g a)) := by
  induction l with
  | nil => rfl
  | cons a rest ih =>
      simp only [List.flatMap_cons, relTuples_append, ih]

theorem relTuples_flatten (L : List (List Intent)) :
    relTuples L.flatten = (L.map relTuples).flatten := by
  induction L with
  | nil => rfl
  | cons a rest ih =>
      simp only [List.flatten_cons, relTuples_append, List.map_cons, ih]

theorem nodeTuples_entryIntents (pl : String) (pp : Props) (rt : Option String)
    (k : String) (v : Json) :
    nodeTuples (entryIntents pl pp rt k v) = [entryTuple k v] := by
  cases v <;> rfl

theorem relPairs_entryIntents (pl : String) (pp : Props) (rt : Option String)
    (k : String) (v : Json) :
    relPairs (entryIntents pl pp rt k v) = [((pl, pp), entryTuple k v)] := by
  cases v <;> rfl

theorem relTuples_entryIntents (pl : String) (pp : Props) (rt : Option String)
    (k : String) (v : Json) :
    relTuples (entryIntents pl pp rt k v) = [((pl, pp), entryTuple k v, pyOrHAS rt)] := by
  cases v <;> rfl

theorem nodeTuples_itemIntents (pl : String) (pp : Props) (idx : Nat) (v : Json) :
    nodeTuples (itemIntents pl pp idx v) = [itemTuple pl idx v] := by
  cases v <;> rfl

theorem relPairs_itemIntents (pl : String) (pp : Props) (idx : Nat) (v : Json) :
    relPairs (itemIntents pl pp idx v) = [((pl, pp), itemTuple pl idx v)] := by
  cases v <;> rfl

theorem relTuples_itemIntents (pl : String) (pp : Props) (idx : Nat) (v : Json) :
    relTuples (itemIntents pl pp idx v) = [((pl, pp), itemTuple pl idx v, "HAS")] := by
  cases v <;> rfl

theorem cNodesObj_eq_flatMap (fields : List (String × Json)) :
    cNodesObj fields
      = fields.flatMap (fun kv => entryTuple kv.1 kv.2 :: cNodesFrom (pyCapitalize kv.1) kv.2) := by
  induction fields with
  | nil => rfl
  | cons kv rest ih =>
      rcases kv with ⟨k, v⟩
      simp only [cNodesObj, List.flatMap_cons, ih, List.cons_append]

theorem cNodesArr_eq_flatMap (pl : String) (elems : List Json) : ∀ n : Nat,
    cNodesArr pl n elems
      = (List.enumFrom n elems).flatMap
          (fun iv => itemTuple pl iv.1 iv.2 :: cNodesFrom (pl ++ "Item") iv.2) := by
  induction elems with
  | nil => intro n; rfl
  | cons v rest ih =>
      intro n
      rw [List.enumFrom_cons]
      simp only [cNodesArr, List.flatMap_cons, ih (n + 1), List.cons_append]

theorem cEdgesObj_eq_flatMap (pt : Tuple) (fields : List (String × Json)) :
    cEdgesObj pt fields
      = fields.flatMap (fun kv =>
          (pt, entryTuple kv.1 kv.2) :: cEdgesFrom (entryTuple kv.1 kv.2) (pyCapitalize kv.1) kv.2) := by
  induction fields with
  | nil => rfl
  | cons kv rest ih =>
      rcases kv with ⟨k, v⟩
      simp only [cEdgesObj, List.flatMap_cons, ih, List.cons_append]

theorem cEdgesArr_eq_flatMap (pt : Tuple) (pl : String) (elems : List Json) : ∀ n : Nat,
    cEdgesArr pt pl n elems
      = (List.enumFrom n elems).flatMap
          (fun iv => (pt, itemTuple pl iv.1 iv.2)
            :: cEdgesFrom (itemTuple pl iv.1 iv.2) (pl ++ "Item") iv.2) := by
  induction elems with
  | nil => intro n; rfl
  | cons v rest ih =>
      intro n
      rw [List.enumFrom_cons]
      simp only [cEdgesArr, List.flatMap_cons, ih (n + 1), List.cons_append]

theorem enum_eq_enumFrom {α : Type} (l : List α) : l.enum = List.enumFrom 0 l := rfl

theorem children_relType (f : Frame) (g : Frame) (hg : g ∈ frameChildren f) :
    g.rel_type = some "HAS" := by
  cases hd : f.current_data with
  | obj fields =>
      rw [frameChildren, hd] at hg
      rcases List.mem_filterMap.mp hg with ⟨kv, _, hsome⟩
      cases hv : kv.2 with
      | prim p => rw [hv] at hsome; simp at hsome
      | obj fs2 =>
          rw [hv] at hsome
          simp only [Option.some.injEq] at hsome
          rw [← hsome]
      | arr es2 =>
          rw [hv] at hsome
          simp only [Option.some.injEq] at hsome
          rw [← hsome]
  | arr elems =>
      rw [frameChildren, hd] at hg
      rcases List.mem_filterMap.mp hg with ⟨iv, _, hsome⟩
      cases hv : iv.2 with
      | prim p => rw [hv] at hsome; simp at hsome
      | obj fs2 =>
          rw [hv] at hsome
          simp only [Option.some.injEq] at hsome
          rw [← hsome]
      | arr es2 =>
          rw [hv] at hsome
          simp only [Option.some.injEq] at hsome
          rw [← hsome]
  | prim p =>
      rw [frameChildren, hd] at hg
      simp at hg

theorem objChildren_eq (f : Frame) (fields : List (String × Json))
    (hd : f.current_data = Json.obj fields) :
    frameChildren f = fields.filterMap (fun kv =>
      match kv.2 with
      | .prim _ => none
      | v => some ⟨pyCapitalize kv.1, [("name", Prim.s kv.1)], some "HAS", v⟩) := by
  simp only [frameChildren, hd]

theorem arrChildren_eq (f : Frame) (elems : List Json)
    (hd : f.current_data = Json.arr elems) :
    frameChildren f = elems.enum.filterMap (fun iv =>
      match iv.2 with
      | .prim _ => none
      | v => some ⟨f.parent_label ++ "Item", [("index", Prim.i (Int.ofNat iv.1))], some "HAS", v⟩) := by
  simp only [frameChildren, hd]

/-- Per-frame node tuples of the traversal are, up to order, exactly the
containment nodes of the subtree. -/
theorem nodeTuples_emitFrame : ∀ f : Frame, is_primitive f.current_data = false →
    List.Perm (nodeTuples (emitFrame f)) (cNodesFrom f.parent_label f.current_data) := by
  apply frame_induction (P := fun f => is_primitive f.current_data = false →
    List.Perm (nodeTuples (emitFrame f)) (cNodesFrom f.parent_label f.current_data))
  intro f ih hf
  have hch1 : List.Perm
      ((((frameChildren f).reverse.map emitFrame).map nodeTuples).flatten)
      ((((frameChildren f).map emitFrame).map nodeTuples).flatten) := by
    rw [List.map_reverse, List.map_reverse]
    exact flatten_reverse_perm _
  have hch2 : List.Perm
      ((((frameChildren f).map emitFrame).map nodeTuples).flatten)
      (((frameChildren f).map (fun g => cNodesFrom g.parent_label g.current_data)).flatten) := by
    rw [List.map_map]
    exact flatten_forall2_perm (forall2_map_map _ _ _
      (fun g hg => ih g hg (children_container f g hg)))
  cases hd : f.current_data with
  | obj fields =>
      have hA : nodeTuples (frameImm f) = fields.map (fun kv => entryTuple kv.1 kv.2) := by
        rw [frameImm, hd, nodeTuples_flatMap]
        simp only [nodeTuples_entryIntents]
        exact flatMap_singleton_eq _ _
      have hch3 :
          ((frameChildren f).map (fun g => cNodesFrom g.parent_label g.current_data)).flatten
            = fields.flatMap (fun kv => cNodesFrom (pyCapitalize kv.1) kv.2) := by
        rw [objChildren_eq f fields hd]
        apply flatten_map_filterMap_eq
        intro kv _
        constructor
        · intro hnone
          cases hv : kv.2 with
          | prim p => rfl
          | obj fs2 => rw [hv] at hnone; simp at hnone
          | arr es2 => rw [hv] at hnone; simp at hnone
        · intro fr hfr
          cases hv : kv.2 with
          | prim p => rw [hv] at hfr; simp at hfr
          | obj fs2 =>
              rw [hv] at hfr
              simp only [Option.some.injEq] at hfr
              rw [← hfr]
          | arr es2 =>
              rw [hv] at hfr
              simp only [Option.some.injEq] at hfr
              rw [← hfr]
      have hB := hch1.trans hch2
      rw [hch3] at hB
      rw [emitFrame_def, nodeTuples_append, nodeTuples_flatten, hA]
      simp only [cNodesFrom]
      rw [cNodesObj_eq_flatMap]
      exact (hB.append_left _).trans (map_append_flatMap_perm fields _ _)
  | arr elems =>
      have hA : nodeTuples (frameImm f)
          = elems.enum.map (fun iv => itemTuple f.parent_label iv.1 iv.2) := by
        rw [frameImm, hd, nodeTuples_flatMap]
        simp only [nodeTuples_itemIntents]
        exact flatMap_singleton_eq _ _
      have hch3 :
          ((frameChildren f).map (fun g => cNodesFrom g.parent_label g.current_data)).flatten
            = elems.enum.flatMap (fun iv => cNodesFrom (f.parent_label ++ "Item") iv.2) := by
        rw [arrChildren_eq f elems hd]
        apply flatten_map_filterMap_eq
        intro iv _
        constructor
        · intro hnone
          cases hv : iv.2 with
          | prim p => rfl
          | obj fs2 => rw [hv] at hnone; simp at hnone
          | arr es2 => rw [hv] at hnone; simp at hnone
        · intro fr hfr
          cases hv : iv.2 with
          | prim p => rw [hv] at hfr; simp at hfr
          | obj fs2 =>
              rw [hv] at hfr
              simp only [Option.some.injEq] at hfr
              rw [← hfr]
          | arr es2 =>
              rw [hv] at hfr
              simp only [Option.some.injEq] at hfr
              rw [← hfr]
      have hB := hch1.trans hch2
      rw [hch3] at hB
      rw [emitFrame_def, nodeTuples_append, nodeTuples_flatten, hA]
      simp only [cNodesFrom]
      rw [cNodesArr_eq_flatMap, ← enum_eq_enumFrom]
      exact (hB.append_left _).trans (map_append_flatMap_perm elems.enum _ _)
  | prim p =>
      rw [hd] at hf
      simp [is_primitive, is_dict, is_list] at hf

/-- Per-frame relationship pairs of the traversal are, up to order,
exactly the containment edges of the subtree. -/
theorem relPairs_emitFrame : ∀ f : Frame,
    List.Perm (relPairs (emitFrame f))
      (cEdgesFrom (f.parent_label, f.parent_properties) f.parent_label f.current_data) := by
  apply frame_induction (P := fun f =>
    List.Perm (relPairs (emitFrame f))
      (cEdgesFrom (f.parent_label, f.parent_properties) f.parent_label f.current_data))
  intro f ih
  have hch1 : List.Perm
      ((((frameChildren f).reverse.map emitFrame).map relPairs).flatten)
      ((((frameChildren f).map emitFrame).map relPairs).flatten) := by
    rw [List.map_reverse, List.map_reverse]
    exact flatten_reverse_perm _
  have hch2 : List.Perm
      ((((frameChildren f).map emitFrame).map relPairs).flatten)
      (((frameChildren f).map (fun g =>
        cEdgesFrom (g.parent_label, g.parent_properties) g.parent_label g.current_data)).flatten) := by
    rw [List.map_map]
    exact flatten_forall2_perm (forall2_map_map _ _ _ (fun g hg => ih g hg))
  cases hd : f.current_data with
  | obj fields =>
      have hA : relPairs (frameImm f)
          = fields.map (fun kv =>
              ((f.parent_label, f.parent_properties), entryTuple kv.1 kv.2)) := by
        rw [frameImm, hd, relPairs_flatMap]
        simp only [relPairs_entryIntents]
        exact flatMap_singleton_eq _ _
      have hch3 :
          ((frameChildren f).map (fun g =>
            cEdgesFrom (g.parent_label, g.parent_properties) g.parent_label g.current_data)).flatten
            = fields.flatMap (fun kv =>
                cEdgesFrom (entryTuple kv.1 kv.2) (pyCapitalize kv.1) kv.2) := by
        rw [objChildren_eq f fields hd]
        apply flatten_map_filterMap_eq
        intro kv _
        constructor
        · intro hnone
          cases hv : kv.2 with
          | prim p => rfl
          | obj fs2 => rw [hv] at hnone; simp at hnone
          | arr es2 => rw [hv] at hnone; simp at hnone
        · intro fr hfr
          cases hv : kv.2 with
          | prim p => rw [hv] at hfr; simp at hfr
          | obj fs2 =>
              rw [hv] at hfr
              simp only [Option.some.injEq] at hfr
              rw [← hfr]
              rfl
          | arr es2 =>
              rw [hv] at hfr
              simp only [Option.some.injEq] at hfr
              rw [← hfr]
              rfl
      have hB := hch1.trans hch2
      rw [hch3] at hB
      rw [emitFrame_def, relPairs_append, relPairs_flatten, hA]
      simp only [cEdgesFrom]
      rw [cEdgesObj_eq_flatMap]
      exact (hB.append_left _).trans (map_append_flatMap_perm fields _ _)
  | arr elems =>
      have hA : relPairs (frameImm f)
          = elems.enum.map (fun iv =>
              ((f.parent_label, f.parent_properties), itemTuple f.parent_label iv.1 iv.2)) := by
        rw [frameImm, hd, relPairs_flatMap]
        simp only [relPairs_itemIntents]
        exact flatMap_singleton_eq _ _
      have hch3 :
          ((frameChildren f).map (fun g =>
            cEdgesFrom (g.parent_label, g.parent_properties) g.parent_label g.current_data)).flatten
            = elems.enum.flatMap (fun iv =>
                cEdgesFrom (itemTuple f.parent_label iv.1 iv.2) (f.parent_label ++ "Item") iv.2) := by
        rw [arrChildren_eq f elems hd]
        apply flatten_map_filterMap_eq
        intro iv _
        constructor
        · intro hnone
          cases hv : iv.2 with
          | prim p => rfl
          | obj fs2 => rw [hv] at hnone; simp at hnone
          | arr es2 => rw [hv] at hnone; simp at hnone
        · intro fr hfr
          cases hv : iv.2 with
          | prim p => rw [hv] at hfr; simp at hfr
          | obj fs2 =>
              rw [hv] at hfr
              simp only [Option.some.injEq] at hfr
              rw [← hfr]
              rfl
          | arr es2 =>
              rw [hv] at hfr
              simp only [Option.some.injEq] at hfr
              rw [← hfr]
              rfl
      have hB := hch1.trans hch2
      rw [hch3] at hB
      rw [emitFrame_def, relPairs_append, relPairs_flatten, hA]
      simp only [cEdgesFrom]
      rw [cEdgesArr_eq_flatMap, ← enum_eq_enumFrom]
      exact (hB.append_left _).trans (map_append_flatMap_perm elems.enum _ _)
  | prim p =>
      rw [emitFrame_def, relPairs_append, relPairs_flatten]
      have h1 : relPairs (frameImm f) = [] := by
        rw [frameImm, hd]
        by_cases hpl : f.parent_label ≠ "" <;> simp [hpl, relPairs, relTuples]
      have h2 : frameChildren f = [] := by
        rw [frameChildren, hd]
      rw [h1, h2]
      simp [cEdgesFrom]

theorem pyOrHAS_of_ok {rt : Option String} (h : rt = none ∨ rt = some "HAS") :
    pyOrHAS rt = "HAS" := by
  rcases h with h | h <;> rw [h] <;> rfl

/-- Every relationship intent emitted below a frame whose pending type is
None or "HAS" carries the type "HAS". -/
theorem relTuples_emitFrame_HAS : ∀ f : Frame,
    (f.rel_type = none ∨ f.rel_type = some "HAS") →
    ∀ x ∈ relTuples (emitFrame f), x.2.2 = "HAS" := by
  apply frame_induction (P := fun f =>
    (f.rel_type = none ∨ f.rel_type = some "HAS") →
    ∀ x ∈ relTuples (emitFrame f), x.2.2 = "HAS")
  intro f ih hrt x hx
  rw [emitFrame_def, relTuples_append] at hx
  rcases List.mem_append.mp hx with himm | hrest
  · cases hd : f.current_data with
    | obj fields =>
        rw [frameImm, hd, relTuples_flatMap] at himm
        rcases List.mem_flatMap.mp himm with ⟨kv, _, hx2⟩
        rw [relTuples_entryIntents] at hx2
        rcases List.mem_singleton.mp hx2 with rfl
        exact pyOrHAS_of_ok hrt
    | arr elems =>
        rw [frameImm, hd, relTuples_flatMap] at himm
        rcases List.mem_flatMap.mp himm with ⟨iv, _, hx2⟩
        rw [relTuples_itemIntents] at hx2
        rcases List.mem_singleton.mp hx2 with rfl
        rfl
    | prim p =>
        rw [frameImm, hd] at himm
        by_cases hpl : f.parent_label ≠ "" <;> simp [hpl, relTuples] at himm
  · rw [relTuples_flatten] at hrest
    rcases List.mem_flatten.mp hrest with ⟨piece, hpiece, hx2⟩
    rw [List.map_map] at hpiece
    rcases List.mem_map.mp hpiece with ⟨g, hg, hgp⟩
    have hg2 : g ∈ frameChildren f := List.mem_reverse.mp hg
    have := ih g hg2 (Or.inr (children_relType f g hg2)) x (by rw [← hgp] at hx2; exact hx2)
    exact this

/-- Every relationship intent of a document carries the type "HAS". -/
theorem processJson_relTuples_HAS (v : Json) :
    ∀ x ∈ relTuples (processJsonIntents v), x.2.2 = "HAS" := by
  intro x hx
  rw [processJsonIntents_eq] at hx
  have h1 : relTuples (Intent.node "Root" rootProperties
      :: emitFrame ⟨"Root", rootProperties, none, v⟩)
      = relTuples (emitFrame ⟨"Root", rootProperties, none, v⟩) := rfl
  rw [h1] at hx
  exact relTuples_emitFrame_HAS _ (Or.inl rfl) x hx

theorem nodeTuples_processJson (v : Json) :
    nodeTuples (processJsonIntents v)
      = rootTuple :: nodeTuples (emitFrame ⟨"Root", rootProperties, none, v⟩) := by
  rw [processJsonIntents_eq]
  rfl

/-- Up to order, the node tuples of a container document are exactly its
containment nodes. -/
theorem nodeTuples_processJson_perm (v : Json) (hv : is_primitive v = false) :
    List.Perm (nodeTuples (processJsonIntents v)) (cNodes v) := by
  rw [nodeTuples_processJson, cNodes]
  exact List.Perm.cons _ (nodeTuples_emitFrame ⟨"Root", rootProperties, none, v⟩ hv)

/-- Up to order, the relationship pairs of a document are exactly its
containment edges. -/
theorem relPairs_processJson_perm (v : Json) :
    List.Perm (relPairs (processJsonIntents v)) (cEdges v) := by
  have h1 : relPairs (processJsonIntents v)
      = relPairs (emitFrame ⟨"Root", rootProperties, none, v⟩) := by
    rw [processJsonIntents_eq]
    rfl
  rw [h1, cEdges]
  exact relPairs_emitFrame ⟨"Root", rootProperties, none, v⟩

theorem mem_nodeTuples_iff {l : List Intent} {t : Tuple} :
    t ∈ nodeTuples l ↔ Intent.node t.1 t.2 ∈ l := by
  constructor
  · intro ht
    rcases List.mem_filterMap.mp ht with ⟨i, hi, hsome⟩
    cases i with
    | node lbl props =>
        simp only [Option.some.injEq] at hsome
        rw [← hsome]
        exact hi
    | rel fl fp tl tp ty => simp at hsome
  · intro ht
    exact List.mem_filterMap.mpr ⟨Intent.node t.1 t.2, ht, rfl⟩

theorem mem_relTuples_iff {l : List Intent} {x : Tuple × Tuple × String} :
    x ∈ relTuples l ↔ Intent.rel x.1.1 x.1.2 x.2.1.1 x.2.1.2 x.2.2 ∈ l := by
  constructor
  · intro hx
    rcases List.mem_filterMap.mp hx with ⟨i, hi, hsome⟩
    cases i with
    | node lbl props => simp at hsome
    | rel fl fp tl tp ty =>
        simp only [Option.some.injEq] at hsome
        rw [← hsome]
        exact hi
  · intro hx
    exact List.mem_filterMap.mpr ⟨Intent.rel x.1.1 x.1.2 x.2.1.1 x.2.1.2 x.2.2, hx, rfl⟩

theorem mem_relPairs_of_rel {l : List Intent} {fl : String} {fp : Props} {tl : String}
    {tp : Props} {ty : String} (h : Intent.rel fl fp tl tp ty ∈ l) :
    ((fl, fp), (tl, tp)) ∈ relPairs l := by
  have h1 : ((fl, fp), (tl, tp), ty) ∈ relTuples l := mem_relTuples_iff.mpr h
  exact List.mem_map.mpr ⟨((fl, fp), (tl, tp), ty), h1, rfl⟩

/-- Property dictionaries with pairwise distinct keys (every dictionary
the mapper builds has this shape). -/
def wellFormedProps (p : Props) : Prop := (p.map Prod.fst).Nodup

theorem lookup_self {p : Props} (hw : wellFormedProps p) :
    ∀ kv ∈ p, p.lookup kv.1 = some kv.2 := by
  induction p with
  | nil => intro kv hkv; simp at hkv
  | cons hd rest ih =>
      intro kv hkv
      rcases List.mem_cons.mp hkv with rfl | hkv2
      · simp [List.lookup]
      · have hne : kv.1 ≠ hd.1 := by
          intro he
          have : kv.1 ∈ rest.map Prod.fst := List.mem_map_of_mem _ hkv2
          rw [wellFormedProps, List.map_cons, List.nodup_cons] at hw
          exact hw.1 (he ▸ this)
        have hw2 : wellFormedProps rest := by
          rw [wellFormedProps, List.map_cons, List.nodup_cons] at hw
          exact hw.2
        have hbe : (kv.1 == hd.1) = false := by
          simpa using hne
        simp only [List.lookup, hbe]
        exact ih hw2 kv hkv2

theorem nodeMatches_refl {t : Tuple} (hw : wellFormedProps t.2) :
    nodeMatches t t = true := by
  rw [nodeMatches]
  simp only [Bool.and_eq_true, decide_eq_true_eq, List.all_eq_true]
  refine ⟨by simp, ?_⟩
  intro kv hkv
  simp [lookup_self hw kv hkv]

theorem mem_insertEdge {es : List (Nat × Nat × String)} {e x : Nat × Nat × String} :
    x ∈ insertEdge es e ↔ x ∈ es ∨ x = e := by
  rw [insertEdge]
  by_cases he : e ∈ es
  · rw [if_pos he]
    constructor
    · exact Or.inl
    · rintro (hx | rfl)
      · exact hx
      · exact he
  · rw [if_neg he]
    simp [List.mem_append]

theorem insertEdge_of_mem {es : List (Nat × Nat × String)} {e : Nat × Nat × String}
    (he : e ∈ es) : insertEdge es e = es := by
  rw [insertEdge, if_pos he]

theorem filterMap_enumFrom_nil {l : List Tuple} {t : Tuple}
    (h : ∀ y ∈ l, nodeMatches t y = false) : ∀ n : Nat,
    (List.enumFrom n l).filterMap
      (fun en => if nodeMatches t en.2 then some en.1 else none) = [] := by
  induction l with
  | nil => intro n; rfl
  | cons x rest ih =>
      intro n
      rw [List.enumFrom_cons, List.filterMap_cons]
      have hx : nodeMatches t x = false := h x (List.mem_cons_self x rest)
      simp only [hx]
      simp only [Bool.false_eq_true, if_false]
      exact ih (fun y hy => h y (List.mem_cons_of_mem x hy)) (n + 1)

/-- Index of the first occurrence of a tuple in a node list. -/
def tidx (t : Tuple) : List Tuple → Nat
  | [] => 0
  | x :: rest => if x = t then 0 else tidx t rest + 1

theorem tidx_lt_length {t : Tuple} : ∀ {l : List Tuple}, t ∈ l → tidx t l < l.length := by
  intro l
  induction l with
  | nil => intro h; simp at h
  | cons x rest ih =>
      intro h
      rw [tidx]
      by_cases hx : x = t
      · rw [if_pos hx]
        simp
      · rw [if_neg hx]
        have ht : t ∈ rest := by
          rcases List.mem_cons.mp h with rfl | h2
          · exact absurd rfl hx
          · exact h2
        have := ih ht
        simp only [List.length_cons]
        omega

theorem get?_tidx {t : Tuple} : ∀ {l : List Tuple}, t ∈ l → l.get? (tidx t l) = some t := by
  intro l
  induction l with
  | nil => intro h; simp at h
  | cons x rest ih =>
      intro h
      by_cases hx : x = t
      · rw [tidx, if_pos hx, List.get?_cons_zero, hx]
      · have ht : t ∈ rest := by
          rcases List.mem_cons.mp h with rfl | h2
          · exact absurd rfl hx
          · exact h2
        rw [tidx, if_neg hx, List.get?_cons_succ]
        exact ih ht

theorem tidx_of_get? : ∀ {l : List Tuple}, l.Nodup → ∀ {i : Nat} {a : Tuple},
    l.get? i = some a → tidx a l = i := by
  intro l
  induction l with
  | nil => intro _ i a h; simp at h
  | cons x rest ih =>
      intro hnodup i a h
      rw [List.nodup_cons] at hnodup
      match i with
      | 0 =>
          rw [List.get?_cons_zero, Option.some.injEq] at h
          rw [tidx, if_pos h]
      | j + 1 =>
          rw [List.get?_cons_succ] at h
          have hmem : a ∈ rest := List.get?_mem h
          have hne : x ≠ a := fun he => hnodup.1 (he ▸ hmem)
          rw [tidx, if_neg hne, ih hnodup.2 h]

theorem tidx_append_of_mem {t : Tuple} : ∀ {l1 : List Tuple} (l2 : List Tuple), t ∈ l1 →
    tidx t (l1 ++ l2) = tidx t l1 := by
  intro l1
  induction l1 with
  | nil => intro l2 h; simp at h
  | cons x rest ih =>
      intro l2 h
      by_cases hx : x = t
      · rw [List.cons_append, tidx, if_pos hx, tidx, if_pos hx]
      · have ht : t ∈ rest := by
          rcases List.mem_cons.mp h with rfl | h2
          · exact absurd rfl hx
          · exact h2
        rw [List.cons_append, tidx, if_neg hx, tidx, if_neg hx, ih l2 ht]

theorem filterMap_enumFrom_single {l : List Tuple} {t : Tuple}
    (hnodup : l.Nodup) (ht : t ∈ l) (hex : ∀ x ∈ l, nodeMatches t x = true → x = t)
    (hrefl : nodeMatches t t = true) : ∀ n : Nat,
    (List.enumFrom n l).filterMap
      (fun en => if nodeMatches t en.2 then some en.1 else none) = [n + tidx t l] := by
  induction l with
  | nil => simp at ht
  | cons x rest ih =>
      intro n
      rw [List.enumFrom_cons, List.filterMap_cons]
      by_cases hx : x = t
      · subst hx
        simp only [hrefl, if_true]
        have hrest : ∀ y ∈ rest, nodeMatches x y = false := by
          intro y hy
          cases hmy : nodeMatches x y
          · rfl
          · have := hex y (List.mem_cons_of_mem x hy) hmy
            rw [List.nodup_cons] at hnodup
            exact absurd (this ▸ hy) hnodup.1
        rw [filterMap_enumFrom_nil hrest (n + 1)]
        rw [tidx, if_pos rfl]
        simp
      · have hmx : nodeMatches t x = false := by
          cases hmx2 : nodeMatches t x
          · rfl
          · exact absurd (hex x (List.mem_cons_self x rest) hmx2) hx
        simp only [hmx]
        simp only [Bool.false_eq_true, if_false]
        have ht2 : t ∈ rest := by
          rcases List.mem_cons.mp ht with rfl | h2
          · exact absurd rfl hx
          · exact h2
        rw [List.nodup_cons] at hnodup
        rw [ih hnodup.2 ht2 (fun y hy hm => hex y (List.mem_cons_of_mem x hy) hm) (n + 1)]
        rw [tidx, if_neg hx]
        congr 1
        omega

theorem matchIdxs_single {st : Store} {t : Tuple}
    (hnodup : st.nodes.Nodup) (ht : t ∈ st.nodes)
    (hex : ∀ x ∈ st.nodes, nodeMatches t x = true → x = t)
    (hrefl : nodeMatches t t = true) :
    matchIdxs st t = [tidx t st.nodes] := by
  rw [matchIdxs, enum_eq_enumFrom]
  have := filterMap_enumFrom_single hnodup ht hex hrefl 0
  simpa using this

theorem dictSet_wf {d : Props} (hw : wellFormedProps d) (k : String) (v : Prim) :
    wellFormedProps (dictSet d k v) := by
  rw [dictSet]
  by_cases hany : d.any (fun kv => kv.1 = k)
  · rw [if_pos hany]
    have hkeys : (d.map (fun kv => if kv.1 = k then (k, v) else kv)).map Prod.fst
        = d.map Prod.fst := by
      rw [List.map_map]
      apply List.map_congr_left
      intro kv _
      by_cases hk : kv.1 = k
      · simp [hk]
      · simp [hk]
    rw [wellFormedProps, hkeys]
    exact hw
  · rw [if_neg hany]
    have hnot : k ∉ d.map Prod.fst := by
      intro hk
      rcases List.mem_map.mp hk with ⟨kv, hkv, hfst⟩
      exact hany (List.any_eq_true.mpr ⟨kv, hkv, by simp [hfst]⟩)
    rw [wellFormedProps, List.map_append, List.nodup_append]
    refine ⟨hw, by simp, ?_⟩
    intro a ha hb
    simp only [List.map_cons, List.map_nil, List.mem_singleton] at hb
    exact hnot (hb ▸ ha)

theorem entryTuple_wf (k : String) (v : Json) : wellFormedProps (entryTuple k v).2 := by
  cases v with
  | prim p =>
      have h : (entryTuple k (Json.prim p)).2 = dictSet [("name", Prim.s k)] "value" p := rfl
      rw [h]
      apply dictSet_wf
      simp [wellFormedProps]
  | obj fs => simp [entryTuple, wellFormedProps]
  | arr es => simp [entryTuple, wellFormedProps]

theorem itemTuple_wf (pl : String) (idx : Nat) (v : Json) :
    wellFormedProps (itemTuple pl idx v).2 := by
  cases v with
  | prim p =>
      have h : (itemTuple pl idx (Json.prim p)).2
          = dictSet [("index", Prim.i (Int.ofNat idx))] "value" p := rfl
      rw [h]
      apply dictSet_wf
      simp [wellFormedProps]
  | obj fs => simp [itemTuple, wellFormedProps]
  | arr es => simp [itemTuple, wellFormedProps]

theorem children_pp_wf (f : Frame) (g : Frame) (hg : g ∈ frameChildren f) :
    wellFormedProps g.parent_properties := by
  cases hd : f.current_data with
  | obj fields =>
      rw [frameChildren, hd] at hg
      rcases List.mem_filterMap.mp hg with ⟨kv, _, hsome⟩
      cases hv : kv.2 with
      | prim p => rw [hv] at hsome; simp at hsome
      | obj fs2 =>
          rw [hv] at hsome
          simp only [Option.some.injEq] at hsome
          rw [← hsome]
          simp [wellFormedProps]
      | arr es2 =>
          rw [hv] at hsome
          simp only [Option.some.injEq] at hsome
          rw [← hsome]
          simp [wellFormedProps]
  | arr elems =>
      rw [frameChildren, hd] at hg
      rcases List.mem_filterMap.mp hg with ⟨iv, _, hsome⟩
      cases hv : iv.2 with
      | prim p => rw [hv] at hsome; simp at hsome
      | obj fs2 =>
          rw [hv] at hsome
          simp only [Option.some.injEq] at hsome
          rw [← hsome]
          simp [wellFormedProps]
      | arr es2 =>
          rw [hv] at hsome
          simp only [Option.some.injEq] at hsome
          rw [← hsome]
          simp [wellFormedProps]
  | prim p =>
      rw [frameChildren, hd] at hg
      simp at hg

theorem emitFrame_wellFormed : ∀ f : Frame, wellFormedProps f.parent_properties →
    ∀ t ∈ nodeTuples (emitFrame f), wellFormedProps t.2 := by
  apply frame_induction (P := fun f => wellFormedProps f.parent_properties →
    ∀ t ∈ nodeTuples (emitFrame f), wellFormedProps t.2)
  intro f ih hw t ht
  rw [emitFrame_def, nodeTuples_append] at ht
  rcases List.mem_append.mp ht with himm | hrest
  · cases hd : f.current_data with
    | obj fields =>
        rw [frameImm, hd, nodeTuples_flatMap] at himm
        rcases List.mem_flatMap.mp himm with ⟨kv, _, ht2⟩
        rw [nodeTuples_entryIntents] at ht2
        rcases List.mem_singleton.mp ht2 with rfl
        exact entryTuple_wf kv.1 kv.2
    | arr elems =>
        rw [frameImm, hd, nodeTuples_flatMap] at himm
        rcases List.mem_flatMap.mp himm with ⟨iv, _, ht2⟩
        rw [nodeTuples_itemIntents] at ht2
        rcases List.mem_singleton.mp ht2 with rfl
        exact itemTuple_wf f.parent_label iv.1 iv.2
    | prim p =>
        simp only [frameImm, hd] at himm
        split at himm
        · have : t = (f.parent_label, dictSet f.parent_properties "value" p) := by
            simpa [nodeTuples] using himm
          rw [this]
          exact dictSet_wf hw "value" p
        · simp [nodeTuples] at himm
  · rw [nodeTuples_flatten] at hrest
    rcases List.mem_flatten.mp hrest with ⟨piece, hpiece, ht2⟩
    rw [List.map_map] at hpiece
    rcases List.mem_map.mp hpiece with ⟨g, hg, hgp⟩
    have hg2 : g ∈ frameChildren f := List.mem_reverse.mp hg
    exact ih g hg2 (children_pp_wf f g hg2) t (by rw [← hgp] at ht2; exact ht2)

/-- Every property dictionary of an emitted node intent has pairwise
distinct keys. -/
theorem processJson_wellFormed (v : Json) :
    ∀ t ∈ nodeTuples (processJsonIntents v), wellFormedProps t.2 := by
  intro t ht
  rw [nodeTuples_processJson] at ht
  rcases List.mem_cons.mp ht with rfl | ht2
  · simp [rootTuple, rootProperties, wellFormedProps]
  · exact emitFrame_wellFormed _ (by simp [rootProperties, wellFormedProps]) t ht2

theorem nodeTuples_snoc_node (pref : List Intent) (l : String) (p : Props) :
    nodeTuples (pref ++ [Intent.node l p]) = nodeTuples pref ++ [(l, p)] := by
  rw [nodeTuples_append]
  rfl

theorem nodeTuples_snoc_rel (pref : List Intent) (fl : String) (fp : Props) (tl : String)
    (tp : Props) (ty : String) :
    nodeTuples (pref ++ [Intent.rel fl fp tl tp ty]) = nodeTuples pref := by
  rw [nodeTuples_append]
  simp [nodeTuples]

theorem relTuples_snoc_node (pref : List Intent) (l : String) (p : Props) :
    relTuples (pref ++ [Intent.node l p]) = relTuples pref := by
  rw [relTuples_append]
  simp [relTuples]

theorem relTuples_snoc_rel (pref : List Intent) (fl : String) (fp : Props) (tl : String)
    (tp : Props) (ty : String) :
    relTuples (pref ++ [Intent.rel fl fp tl tp ty])
      = relTuples pref ++ [((fl, fp), (tl, tp), ty)] := by
  rw [relTuples_append]
  rfl

/-- Invariant of the store after replaying a prefix of an intent
sequence: the stored nodes are exactly the node tuples seen so far
(without duplicates), and the stored edges are exactly the relationship
tuples seen so far, recorded at the indices of their endpoint tuples. -/
def ReplayInv (pref : List Intent) (st : Store) : Prop :=
  (∀ t : Tuple, t ∈ st.nodes ↔ t ∈ nodeTuples pref) ∧
  st.nodes.Nodup ∧
  (∀ (a b : Nat) (ty : String), (a, b, ty) ∈ st.edges ↔
    ∃ ft tt : Tuple, (ft, tt, ty) ∈ relTuples pref
      ∧ a = tidx ft st.nodes ∧ b = tidx tt st.nodes) ∧
  (∀ e ∈ relTuples pref, e.1 ∈ st.nodes ∧ e.2.1 ∈ st.nodes)

theorem replayInv_nil : ReplayInv [] emptyStore := by
  refine ⟨?_, ?_, ?_, ?_⟩ <;> simp [emptyStore, nodeTuples, relTuples]

theorem replay_step_node {pref : List Intent} {st : Store} {l : String} {p : Props}
    (hE : ∀ t1 ∈ nodeTuples (pref ++ [Intent.node l p]),
      ∀ t2 ∈ nodeTuples (pref ++ [Intent.node l p]), nodeMatches t1 t2 = true → t1 = t2)
    (hW : ∀ t ∈ nodeTuples (pref ++ [Intent.node l p]), wellFormedProps t.2)
    (hInv : ReplayInv pref st) :
    ReplayInv (pref ++ [Intent.node l p]) (applyNode st l p) := by
  obtain ⟨h1, h2, h3, h4⟩ := hInv
  have hmemfull : ∀ t ∈ nodeTuples pref, t ∈ nodeTuples (pref ++ [Intent.node l p]) := by
    intro t ht
    rw [nodeTuples_snoc_node]
    exact List.mem_append.mpr (Or.inl ht)
  have ht0 : (l, p) ∈ nodeTuples (pref ++ [Intent.node l p]) := by
    rw [nodeTuples_snoc_node]
    exact List.mem_append.mpr (Or.inr (List.mem_singleton.mpr rfl))
  have hrefl : nodeMatches (l, p) (l, p) = true := nodeMatches_refl (hW _ ht0)
  rw [applyNode]
  by_cases hmatch : st.nodes.any (fun n => nodeMatches (l, p) n) = true
  · rw [if_pos hmatch]
    rcases List.any_eq_true.mp hmatch with ⟨n, hn, hm⟩
    have hn2 : n ∈ nodeTuples pref := (h1 n).mp hn
    have heq : (l, p) = n := hE (l, p) ht0 n (hmemfull n hn2) (by simpa using hm)
    have hlp_mem : (l, p) ∈ st.nodes := heq ▸ hn
    refine ⟨?_, h2, ?_, ?_⟩
    · intro t
      rw [nodeTuples_snoc_node, List.mem_append, List.mem_singleton]
      constructor
      · intro h
        exact Or.inl ((h1 t).mp h)
      · rintro (h | rfl)
        · exact (h1 t).mpr h
        · exact hlp_mem
    · intro a b ty
      rw [relTuples_snoc_node]
      exact h3 a b ty
    · intro e he
      rw [relTuples_snoc_node] at he
      exact h4 e he
  · rw [if_neg hmatch]
    have hnotmem : (l, p) ∉ st.nodes := by
      intro hin
      exact hmatch (List.any_eq_true.mpr ⟨(l, p), hin, by simpa using hrefl⟩)
    refine ⟨?_, ?_, ?_, ?_⟩
    · intro t
      simp only [nodeTuples_snoc_node, List.mem_append, List.mem_singleton]
      constructor
      · rintro (h | h)
        · exact Or.inl ((h1 t).mp h)
        · exact Or.inr (by simpa using h)
      · rintro (h | rfl)
        · exact Or.inl ((h1 t).mpr h)
        · exact Or.inr rfl
    · rw [List.nodup_append]
      refine ⟨h2, by simp, ?_⟩
      intro a ha hb
      simp only [List.mem_singleton] at hb
      exact hnotmem (hb ▸ ha)
    · intro a b ty
      rw [relTuples_snoc_node]
      rw [h3 a b ty]
      constructor
      · rintro ⟨ft, tt, hrel, ha, hb⟩
        have hft := (h4 _ hrel).1
        have htt := (h4 _ hrel).2
        refine ⟨ft, tt, hrel, ?_, ?_⟩
        · rw [ha]
          exact (tidx_append_of_mem _ hft).symm
        · rw [hb]
          exact (tidx_append_of_mem _ htt).symm
      · rintro ⟨ft, tt, hrel, ha, hb⟩
        have hft := (h4 _ hrel).1
        have htt := (h4 _ hrel).2
        refine ⟨ft, tt, hrel, ?_, ?_⟩
        · rw [ha]
          exact tidx_append_of_mem _ hft
        · rw [hb]
          exact tidx_append_of_mem _ htt
    · intro e he
      rw [relTuples_snoc_node] at he
      obtain ⟨hf, ht⟩ := h4 e he
      exact ⟨List.mem_append.mpr (Or.inl hf), List.mem_append.mpr (Or.inl ht)⟩

theorem replay_step_rel {pref : List Intent} {st : Store} {fl : String} {fp : Props}
    {tl : String} {tp : Props} {ty0 : String}
    (hE : ∀ t1 ∈ nodeTuples pref, ∀ t2 ∈ nodeTuples pref, nodeMatches t1 t2 = true → t1 = t2)
    (hW : ∀ t ∈ nodeTuples pref, wellFormedProps t.2)
    (hOk : relOk pref (Intent.rel fl fp tl tp ty0))
    (hInv : ReplayInv pref st) :
    ReplayInv (pref ++ [Intent.rel fl fp tl tp ty0]) (applyRel st fl fp tl tp ty0) := by
  obtain ⟨h1, h2, h3, h4⟩ := hInv
  obtain ⟨hfok, htok⟩ := hOk
  have hft_nt : (fl, fp) ∈ nodeTuples pref := mem_nodeTuples_iff.mpr hfok
  have htt_nt : (tl, tp) ∈ nodeTuples pref := mem_nodeTuples_iff.mpr htok
  have hft : (fl, fp) ∈ st.nodes := (h1 _).mpr hft_nt
  have htt : (tl, tp) ∈ st.nodes := (h1 _).mpr htt_nt
  have hex_f : ∀ x ∈ st.nodes, nodeMatches (fl, fp) x = true → x = (fl, fp) := by
    intro x hx hm
    exact (hE _ hft_nt x ((h1 x).mp hx) hm).symm
  have hex_t : ∀ x ∈ st.nodes, nodeMatches (tl, tp) x = true → x = (tl, tp) := by
    intro x hx hm
    exact (hE _ htt_nt x ((h1 x).mp hx) hm).symm
  have hm1 : matchIdxs st (fl, fp) = [tidx (fl, fp) st.nodes] :=
    matchIdxs_single h2 hft hex_f (nodeMatches_refl (hW _ hft_nt))
  have hm2 : matchIdxs st (tl, tp) = [tidx (tl, tp) st.nodes] :=
    matchIdxs_single h2 htt hex_t (nodeMatches_refl (hW _ htt_nt))
  rw [applyRel, hm1, hm2]
  show ReplayInv (pref ++ [Intent.rel fl fp tl tp ty0])
    { st with edges := insertEdge st.edges (tidx (fl, fp) st.nodes, tidx (tl, tp) st.nodes, ty0) }
  refine ⟨?_, h2, ?_, ?_⟩
  · intro t
    rw [nodeTuples_snoc_rel]
    exact h1 t
  · intro a b ty
    have core : (a, b, ty) ∈ insertEdge st.edges
        (tidx (fl, fp) st.nodes, tidx (tl, tp) st.nodes, ty0) ↔
        ∃ ft tt : Tuple, (ft, tt, ty) ∈ relTuples (pref ++ [Intent.rel fl fp tl tp ty0])
          ∧ a = tidx ft st.nodes ∧ b = tidx tt st.nodes := by
      rw [mem_insertEdge, h3 a b ty, relTuples_snoc_rel]
      constructor
      · rintro (⟨ft, tt, hrel, ha, hb⟩ | heq)
        · exact ⟨ft, tt, List.mem_append.mpr (Or.inl hrel), ha, hb⟩
        · have ha : a = tidx (fl, fp) st.nodes := congrArg Prod.fst heq
          have h2nd := congrArg Prod.snd heq
          have hb : b = tidx (tl, tp) st.nodes := congrArg Prod.fst h2nd
          have hty : ty = ty0 := congrArg Prod.snd h2nd
          refine ⟨(fl, fp), (tl, tp), ?_, ha, hb⟩
          rw [hty]
          exact List.mem_append.mpr (Or.inr (List.mem_singleton.mpr rfl))
      · rintro ⟨ft, tt, hrel, ha, hb⟩
        rcases List.mem_append.mp hrel with hold | hnew
        · exact Or.inl ⟨ft, tt, hold, ha, hb⟩
        · rw [List.mem_singleton] at hnew
          have hf2 : ft = (fl, fp) := congrArg Prod.fst hnew
          have h2nd := congrArg Prod.snd hnew
          have ht2 : tt = (tl, tp) := congrArg Prod.fst h2nd
          have hty2 : ty = ty0 := congrArg Prod.snd h2nd
          right
          rw [ha, hb, hf2, ht2, hty2]
    exact core
  · intro e he
    rw [relTuples_snoc_rel] at he
    rcases List.mem_append.mp he with hold | hnew
    · exact h4 e hold
    · rw [List.mem_singleton] at hnew
      rw [hnew]
      exact ⟨hft, htt⟩

theorem replay_inv_full : ∀ (rest pref : List Intent) (st : Store),
    (∀ t1 ∈ nodeTuples (pref ++ rest), ∀ t2 ∈ nodeTuples (pref ++ rest),
      nodeMatches t1 t2 = true → t1 = t2) →
    (∀ t ∈ nodeTuples (pref ++ rest), wellFormedProps t.2) →
    SeqOk pref rest →
    ReplayInv pref st →
    ReplayInv (pref ++ rest) (applySeq st rest) := by
  intro rest
  induction rest with
  | nil =>
      intro pref st hE hW hS hInv
      simpa [applySeq] using hInv
  | cons i rest ih =>
      intro pref st hE hW hS hInv
      have hsplit : pref ++ i :: rest = (pref ++ [i]) ++ rest := by simp
      have hE2 : ∀ t1 ∈ nodeTuples ((pref ++ [i]) ++ rest),
          ∀ t2 ∈ nodeTuples ((pref ++ [i]) ++ rest), nodeMatches t1 t2 = true → t1 = t2 := by
        rw [← hsplit]
        exact hE
      have hW2 : ∀ t ∈ nodeTuples ((pref ++ [i]) ++ rest), wellFormedProps t.2 := by
        rw [← hsplit]
        exact hW
      have hsub : ∀ t ∈ nodeTuples (pref ++ [i]), t ∈ nodeTuples ((pref ++ [i]) ++ rest) := by
        intro t ht
        rw [nodeTuples_append]
        exact List.mem_append.mpr (Or.inl ht)
      have hstep : ReplayInv (pref ++ [i]) (applyIntent st i) := by
        cases i with
        | node l p =>
            exact replay_step_node
              (fun t1 h1 t2 h2 hm => hE2 t1 (hsub t1 h1) t2 (hsub t2 h2) hm)
              (fun t ht => hW2 t (hsub t ht)) hInv
        | rel fl fp tl tp ty =>
            have hsubp : ∀ t ∈ nodeTuples pref, t ∈ nodeTuples (pref ++ [Intent.rel fl fp tl tp ty]) := by
              intro t ht
              rw [nodeTuples_snoc_rel]
              exact ht
            exact replay_step_rel
              (fun t1 h1 t2 h2 hm => hE2 t1 (hsub t1 (hsubp t1 h1)) t2 (hsub t2 (hsubp t2 h2)) hm)
              (fun t ht => hW2 t (hsub t (hsubp t ht))) hS.1 hInv
      have hfin := ih (pref ++ [i]) (applyIntent st i) hE2 hW2 (hS.2) hstep
      rw [hsplit]
      exact hfin

/-- Characterisation of the store after replaying a full intent sequence
from the empty store, assuming node patterns match only their own tuples. -/
theorem replay_characterization (s : List Intent)
    (hE : ∀ t1 ∈ nodeTuples s, ∀ t2 ∈ nodeTuples s, nodeMatches t1 t2 = true → t1 = t2)
    (hW : ∀ t ∈ nodeTuples s, wellFormedProps t.2)
    (hS : SeqOk [] s) :
    ReplayInv s (applySeq emptyStore s) := by
  have := replay_inv_full s [] emptyStore (by simpa using hE) (by simpa using hW) hS replayInv_nil
  simpa using this

theorem applyNode_noop {st : Store} {l : String} {p : Props}
    (h : st.nodes.any (fun n => nodeMatches (l, p) n) = true) :
    applyNode st l p = st := by
  rw [applyNode, if_pos h]

theorem applyRel_noop {st : Store} {fl tl : String} {fp tp : Props} {ty : String}
    (hm1 : matchIdxs st (fl, fp) = [tidx (fl, fp) st.nodes])
    (hm2 : matchIdxs st (tl, tp) = [tidx (tl, tp) st.nodes])
    (hedge : (tidx (fl, fp) st.nodes, tidx (tl, tp) st.nodes, ty) ∈ st.edges) :
    applyRel st fl fp tl tp ty = st := by
  rw [applyRel, hm1, hm2]
  have core : insertEdge st.edges (tidx (fl, fp) st.nodes, tidx (tl, tp) st.nodes, ty)
      = st.edges := insertEdge_of_mem hedge
  show ({ st with edges := insertEdge st.edges (tidx (fl, fp) st.nodes, tidx (tl, tp) st.nodes, ty) } : Store) = st
  rw [core]

theorem applySeq_noop {st : Store} : ∀ {s : List Intent},
    (∀ i ∈ s, applyIntent st i = st) → applySeq st s = st := by
  intro s
  induction s with
  | nil => intro _; rfl
  | cons i rest ih =>
      intro h
      have hstep : applySeq st (i :: rest) = applySeq (applyIntent st i) rest := rfl
      rw [hstep, h i (List.mem_cons_self i rest)]
      exact ih (fun j hj => h j (List.mem_cons_of_mem i hj))

/-- Under exact matching, replaying the whole sequence a second time
changes nothing: every node MERGE finds its node and every relationship
MERGE finds its unique endpoint pair and existing edge. -/
theorem replay_idempotent (s : List Intent)
    (hE : ∀ t1 ∈ nodeTuples s, ∀ t2 ∈ nodeTuples s, nodeMatches t1 t2 = true → t1 = t2)
    (hW : ∀ t ∈ nodeTuples s, wellFormedProps t.2)
    (hS : SeqOk [] s) :
    applySeq (applySeq emptyStore s) s = applySeq emptyStore s := by
  obtain ⟨h1, h2, h3, h4⟩ := replay_characterization s hE hW hS
  apply applySeq_noop
  intro i hi
  cases i with
  | node l p =>
      have hnt : (l, p) ∈ nodeTuples s := mem_nodeTuples_iff.mpr hi
      apply applyNode_noop
      exact List.any_eq_true.mpr
        ⟨(l, p), (h1 _).mpr hnt, by simpa using nodeMatches_refl (hW _ hnt)⟩
  | rel fl fp tl tp ty =>
      have hrt : ((fl, fp), (tl, tp), ty) ∈ relTuples s := mem_relTuples_iff.mpr hi
      have hft : (fl, fp) ∈ (applySeq emptyStore s).nodes := (h4 _ hrt).1
      have htt : (tl, tp) ∈ (applySeq emptyStore s).nodes := (h4 _ hrt).2
      have hfnt : (fl, fp) ∈ nodeTuples s := (h1 _).mp hft
      have htnt : (tl, tp) ∈ nodeTuples s := (h1 _).mp htt
      have hex_f : ∀ x ∈ (applySeq emptyStore s).nodes,
          nodeMatches (fl, fp) x = true → x = (fl, fp) := by
        intro x hx hm
        exact (hE _ hfnt x ((h1 x).mp hx) hm).symm
      have hex_t : ∀ x ∈ (applySeq emptyStore s).nodes,
          nodeMatches (tl, tp) x = true → x = (tl, tp) := by
        intro x hx hm
        exact (hE _ htnt x ((h1 x).mp hx) hm).symm
      have hm1 := matchIdxs_single h2 hft hex_f (nodeMatches_refl (hW _ hfnt))
      have hm2 := matchIdxs_single h2 htt hex_t (nodeMatches_refl (hW _ htnt))
      apply applyRel_noop hm1 hm2
      exact (h3 _ _ ty).mpr ⟨(fl, fp), (tl, tp), hrt, rfl, rfl⟩

/-- Every pair of distinct node intents of the document has patterns that
match neither way: node identities are exact, with no pattern-subsumption
between two different containment positions. -/
def ExactTuples (v : Json) : Prop :=
  (nodeTuples (processJsonIntents v)).Pairwise
    (fun a b => nodeMatches a b = false ∧ nodeMatches b a = false)

theorem exactTuples_matches_eq {v : Json} (hE : ExactTuples v) :
    ∀ t1 ∈ nodeTuples (processJsonIntents v), ∀ t2 ∈ nodeTuples (processJsonIntents v),
      nodeMatches t1 t2 = true → t1 = t2 := by
  intro t1 h1 t2 h2 hm
  by_cases heq : t1 = t2
  · exact heq
  · have hsym : Symmetric (fun a b : Tuple => nodeMatches a b = false ∧ nodeMatches b a = false) :=
      fun a b h => ⟨h.2, h.1⟩
    have := List.Pairwise.forall hsym hE h1 h2 heq
    rw [this.1] at hm
    exact absurd hm (by simp)

theorem exactTuples_nodup {v : Json} (hE : ExactTuples v) :
    (nodeTuples (processJsonIntents v)).Nodup := by
  have hW := processJson_wellFormed v
  apply List.Pairwise.imp_of_mem ?_ hE
  intro a b ha _ hab heq
  subst heq
  have hrefl : nodeMatches a a = true := nodeMatches_refl (hW a ha)
  rw [hab.1] at hrefl
  exact absurd hrefl (by simp)

theorem exactTuples_not_prim (p : Prim) : ¬ ExactTuples (Json.prim p) := by
  intro h
  have hcomp : nodeTuples (processJsonIntents (Json.prim p))
      = [rootTuple, ("Root", [("name", Prim.s "root"), ("value", p)])] := rfl
  rw [ExactTuples, hcomp] at h
  rcases List.pairwise_cons.mp h with ⟨hpair, _⟩
  have h1 := (hpair _ (List.mem_singleton.mpr rfl)).1
  have h2 : nodeMatches rootTuple ("Root", [("name", Prim.s "root"), ("value", p)]) = true := rfl
  rw [h1] at h2
  exact absurd h2 (by simp)

theorem exactTuples_container {v : Json} (hE : ExactTuples v) : is_primitive v = false := by
  cases v with
  | obj fields => rfl
  | arr elems => rfl
  | prim p => exact absurd hE (exactTuples_not_prim p)

theorem stF_get?_tidx {s : List Intent} {t : Tuple}
    (h : t ∈ (applySeq emptyStore s).nodes) :
    (applySeq emptyStore s).nodes.get? (tidx t (applySeq emptyStore s).nodes) = some t :=
  get?_tidx h

/-- Under exact node identities, replaying the emitted sequence of a
document against the empty store reconstructs a graph isomorphic to the
containment structure of the document, rooted at the Root node. -/
theorem replay_iso (v : Json) (hE : ExactTuples v) :
    IsoContainment v (applySeq emptyStore (processJsonIntents v)) := by
  have hW := processJson_wellFormed v
  have hS := processJsonIntents_seqOk v
  have hE2 := exactTuples_matches_eq hE
  have hnt_nodup := exactTuples_nodup hE
  have hv := exactTuples_container hE
  have hperm_nodes := nodeTuples_processJson_perm v hv
  have hperm_edges := relPairs_processJson_perm v
  have hnodup_c : (cNodes v).Nodup := (hperm_nodes.nodup_iff).mp hnt_nodup
  obtain ⟨h1, h2, h3, h4⟩ := replay_characterization (processJsonIntents v) hE2 hW hS
  have hmem_cn : ∀ t : Tuple, t ∈ (applySeq emptyStore (processJsonIntents v)).nodes
      ↔ t ∈ cNodes v := by
    intro t
    rw [h1 t]
    exact hperm_nodes.mem_iff
  have hlt : ∀ i : Fin (cNodes v).length,
      tidx ((cNodes v).get i) (applySeq emptyStore (processJsonIntents v)).nodes
        < (applySeq emptyStore (processJsonIntents v)).nodes.length := by
    intro i
    exact tidx_lt_length ((hmem_cn _).mpr (List.get_mem _ _ _))
  refine ⟨fun i => ⟨tidx ((cNodes v).get i) (applySeq emptyStore (processJsonIntents v)).nodes,
    hlt i⟩, ⟨?_, ?_⟩, ?_, ?_⟩
  · intro i j hij
    have hvij : tidx ((cNodes v).get i) (applySeq emptyStore (processJsonIntents v)).nodes
        = tidx ((cNodes v).get j) (applySeq emptyStore (processJsonIntents v)).nodes :=
      congrArg Fin.val hij
    have hgi := stF_get?_tidx ((hmem_cn _).mpr (List.get_mem _ _ i.isLt))
    have hgj := stF_get?_tidx ((hmem_cn _).mpr (List.get_mem _ _ j.isLt))
    rw [hvij] at hgi
    rw [hgj] at hgi
    have : (cNodes v).get j = (cNodes v).get i := Option.some.inj hgi
    exact ((List.Nodup.get_inj_iff hnodup_c).mp this).symm
  · intro j
    have hmem : (applySeq emptyStore (processJsonIntents v)).nodes.get j ∈ cNodes v :=
      (hmem_cn _).mp (List.get_mem _ _ _)
    rcases List.mem_iff_get.mp hmem with ⟨i, hi⟩
    refine ⟨i, ?_⟩
    apply Fin.ext
    show tidx ((cNodes v).get i) (applySeq emptyStore (processJsonIntents v)).nodes = j.val
    rw [hi]
    exact tidx_of_get? h2 (List.get?_eq_get j.isLt)
  · intro hr
    have hmem : rootTuple ∈ (applySeq emptyStore (processJsonIntents v)).nodes := by
      rw [hmem_cn]
      exact List.mem_cons_self _ _
    have hsome := stF_get?_tidx hmem
    have hget := List.get?_eq_get (l := (applySeq emptyStore (processJsonIntents v)).nodes)
      (tidx_lt_length hmem)
    rw [hget] at hsome
    exact Option.some.inj hsome
  · intro i j
    constructor
    · intro hedge
      have hrp : ((cNodes v).get i, (cNodes v).get j)
          ∈ relPairs (processJsonIntents v) := hperm_edges.mem_iff.mpr hedge
      rcases List.mem_map.mp hrp with ⟨x, hx, hproj⟩
      have hty : x.2.2 = "HAS" := processJson_relTuples_HAS v x hx
      have hxeq : x = ((cNodes v).get i, (cNodes v).get j, "HAS") := by
        have hx1 : x.1 = (cNodes v).get i := congrArg Prod.fst hproj
        have hx2 : x.2.1 = (cNodes v).get j := congrArg Prod.snd hproj
        have : x = (x.1, x.2.1, x.2.2) := rfl
        rw [this, hx1, hx2, hty]
      rw [hxeq] at hx
      exact (h3 _ _ "HAS").mpr ⟨(cNodes v).get i, (cNodes v).get j, hx, rfl, rfl⟩
    · intro hedge
      rcases (h3 _ _ "HAS").mp hedge with ⟨ft, tt, hrel, ha, hb⟩
      have hfmem : ft ∈ (applySeq emptyStore (processJsonIntents v)).nodes := (h4 _ hrel).1
      have htmem : tt ∈ (applySeq emptyStore (processJsonIntents v)).nodes := (h4 _ hrel).2
      have hgi := stF_get?_tidx ((hmem_cn _).mpr (List.get_mem _ _ i.isLt))
      have hgf := stF_get?_tidx hfmem
      rw [← ha] at hgf
      have hfeq : ft = (cNodes v).get i := by
        rw [hgf] at hgi
        exact Option.some.inj hgi
      have hgj := stF_get?_tidx ((hmem_cn _).mpr (List.get_mem _ _ j.isLt))
      have hgt := stF_get?_tidx htmem
      rw [← hb] at hgt
      have hteq : tt = (cNodes v).get j := by
        rw [hgt] at hgj
        exact Option.some.inj hgj
      have hrp : (ft, tt) ∈ relPairs (processJsonIntents v) :=
        List.mem_map.mpr ⟨(ft, tt, "HAS"), hrel, rfl⟩
      rw [hfeq, hteq] at hrp
      exact hperm_edges.mem_iff.mp hrp

theorem jsize_field_lt {fields : List (String × Json)} {kv : String × Json}
    (h : kv ∈ fields) : jsize kv.2 < jsize (Json.obj fields) := by
  have h1 : jsize kv.2 ∈ fields.map (fun kv => jsize kv.2) := List.mem_map_of_mem _ h
  have h2 := List.single_le_sum (l := fields.map (fun kv => jsize kv.2))
    (fun _ _ => Nat.zero_le _) _ h1
  rw [jsize, jsizeFields_eq]
  omega

theorem jsize_elem_lt {elems : List Json} {e : Json} (h : e ∈ elems) :
    jsize e < jsize (Json.arr elems) := by
  have h1 : jsize e ∈ elems.map jsize := List.mem_map_of_mem _ h
  have h2 := List.single_le_sum (l := elems.map jsize) (fun _ _ => Nat.zero_le _) _ h1
  rw [jsize, jsizeElems_eq]
  omega

theorem map_flatMap {α β γ : Type} (l : List α) (g : α → List β) (f : β → γ) :
    (l.flatMap g).map f = l.flatMap (fun a => (g a).map f) := by
  induction l with
  | nil => rfl
  | cons a rest ih => simp only [List.flatMap_cons, List.map_append, ih]

theorem flatMap_congr {α β : Type} {l : List α} {f g : α → List β}
    (h : ∀ a ∈ l, f a = g a) : l.flatMap f = l.flatMap g := by
  induction l with
  | nil => rfl
  | cons a rest ih =>
      simp only [List.flatMap_cons]
      rw [h a (List.mem_cons_self a rest), ih (fun b hb => h b (List.mem_cons_of_mem a hb))]

/-- The targets of the containment edges are exactly the non-root
containment nodes, with the same multiplicities. -/
theorem cEdges_map_snd : ∀ (n : Nat) (v : Json), jsize v ≤ n → ∀ (pt : Tuple) (pl : String),
    (cEdgesFrom pt pl v).map Prod.snd = cNodesFrom pl v := by
  intro n
  induction n with
  | zero =>
      intro v hv
      have := jsize_pos v
      omega
  | succ n ih =>
      intro v hv pt pl
      cases v with
      | prim p => rfl
      | obj fields =>
          have h1 : cEdgesFrom pt pl (Json.obj fields) = cEdgesObj pt fields := rfl
          have h2 : cNodesFrom pl (Json.obj fields) = cNodesObj fields := rfl
          rw [h1, h2, cEdgesObj_eq_flatMap, cNodesObj_eq_flatMap, map_flatMap]
          apply flatMap_congr
          intro kv hkv
          simp only [List.map_cons]
          rw [ih kv.2 (by have := jsize_field_lt hkv; omega) (entryTuple kv.1 kv.2) (pyCapitalize kv.1)]
      | arr elems =>
          have h1 : cEdgesFrom pt pl (Json.arr elems) = cEdgesArr pt pl 0 elems := rfl
          have h2 : cNodesFrom pl (Json.arr elems) = cNodesArr pl 0 elems := rfl
          rw [h1, h2, cEdgesArr_eq_flatMap, cNodesArr_eq_flatMap, map_flatMap]
          apply flatMap_congr
          intro iv hiv
          simp only [List.map_cons]
          have hmem : iv.2 ∈ elems := by
            have := List.mem_map_of_mem Prod.snd hiv
            rw [← enum_eq_enumFrom, List.enum_map_snd] at this
            exact this
          rw [ih iv.2 (by have := jsize_elem_lt hmem; omega) (itemTuple pl iv.1 iv.2) (pl ++ "Item")]

/-- Number of occurrences of a tuple in a list of tuples. -/
def tcount (t : Tuple) (l : List Tuple) : Nat := l.countP (fun x => x = t)

theorem tcount_eq_zero {t : Tuple} {l : List Tuple} (h : t ∉ l) : tcount t l = 0 := by
  induction l with
  | nil => rfl
  | cons x rest ih =>
      have hx : ¬ (x = t) := fun he => h (he ▸ List.mem_cons_self x rest)
      rw [tcount, List.countP_cons]
      have hb : (decide (x = t)) = false := by simpa using hx
      rw [hb]
      simp only [Bool.false_eq_true, if_false, Nat.add_zero]
      exact ih (fun hm => h (List.mem_cons_of_mem x hm))

theorem tcount_eq_one {t : Tuple} {l : List Tuple} (hnodup : l.Nodup) (h : t ∈ l) :
    tcount t l = 1 := by
  induction l with
  | nil => simp at h
  | cons x rest ih =>
      rw [List.nodup_cons] at hnodup
      rw [tcount, List.countP_cons]
      by_cases hx : x = t
      · have hb : (decide (x = t)) = true := by simpa using hx
        rw [hb]
        have hnt : t ∉ rest := hx ▸ hnodup.1
        have hz := tcount_eq_zero hnt
        rw [tcount] at hz
        rw [hz]
        simp
      · have hb : (decide (x = t)) = false := by simpa using hx
        rw [hb]
        have ht : t ∈ rest := by
          rcases List.mem_cons.mp h with rfl | h2
          · exact absurd rfl hx
          · exact h2
        have ho := ih hnodup.2 ht
        rw [tcount] at ho
        rw [ho]
        simp

/-- With distinct node identities, the containment edges form a tree: the
root has no incoming edge and every other containment node has exactly
one. -/
theorem cEdges_tree (v : Json) (hnodup : (cNodes v).Nodup) :
    (∀ t ∈ cNodesFrom "Root" v, tcount t ((cEdges v).map Prod.snd) = 1) ∧
    tcount rootTuple ((cEdges v).map Prod.snd) = 0 := by
  have hmap : (cEdges v).map Prod.snd = cNodesFrom "Root" v :=
    cEdges_map_snd (jsize v) v (Nat.le_refl _) rootTuple "Root"
  rw [cNodes, List.nodup_cons] at hnodup
  constructor
  · intro t ht
    rw [hmap]
    exact tcount_eq_one hnodup.2 ht
  · rw [hmap]
    exact tcount_eq_zero hnodup.1

/-- The per-intent upsert attempts of `process_json` for one document.
Both `create_node` and `create_relationship` are decorated with
`future_safe`, so each awaited call yields a Success or Failure value
instead of raising; `process_json` discards that value and continues
unconditionally, so the attempted sequence does not depend on the
outcomes.  `outcome` is the result the store reports for the application
at each position. -/
def documentAttempts (outcome : Nat → Bool) (data : Json) : List (Intent × Bool) :=
  (processJsonIntents data).enum.map (fun ii => (ii.2, outcome ii.1))

theorem documentAttempts_ignore_outcomes (outcome : Nat → Bool) (v : Json) :
    (documentAttempts outcome v).map Prod.fst = processJsonIntents v := by
  rw [documentAttempts, List.map_map]
  have h : (Prod.fst ∘ fun ii : Nat × Intent => (ii.2, outcome ii.1))
      = fun ii : Nat × Intent => ii.2 := rfl
  rw [h, List.enum_map_snd]

/-- Model of `json_parsing_pipeline` (data_loader.py): file reading is an
external collaborator and is assumed to deliver the text; parsing either
yields the parsed value or a ParseError confined to that document.  A
malformed document is represented as `none`. -/
def json_parsing_pipeline (parsed : Option Json) : Except String Json :=
  match parsed with
  | none => Except.error "ParseError"
  | some j => Except.ok j

/-- Model of `process_file`: parse the file, then feed the document to
`process_json`; the emitted intent sequence stands for the completed
processing of the document. -/
def process_file (parsed : Option Json) : Except String (List Intent) :=
  (json_parsing_pipeline parsed).map processJsonIntents

/-- Model of the fan-out of `process_directory`: `asyncio.gather` returns
one result per task, in task order, regardless of completion order. -/
def gatherResults (docs : List (Option Json)) : List (Except String (List Intent)) :=
  docs.map process_file

/-- A statement of `project_graph_in_gds`, either protected by
`try/except` (the drop) or bare (the projection). -/
inductive GdsStmt where
  | tryRun (q : String)
  | run (q : String)

/-- Execution of a statement script against a session where `failing`
says which queries raise: a `tryRun` statement has its failure swallowed
(logged) and execution continues; a bare `run` statement aborts the rest
of the script on failure.  Returns the attempted queries and the overall
outcome. -/
def execScript (failing : String → Bool) : List GdsStmt → List String × Except String Unit
  | [] => ([], Except.ok ())
  | GdsStmt.tryRun q :: rest =>
      let r := execScript failing rest
      (q :: r.1, r.2)
  | GdsStmt.run q :: rest =>
      if failing q then ([q], Except.error q)
      else
        let r := execScript failing rest
        (q :: r.1, r.2)

def dropQuery : String := "CALL gds.graph.drop"

def projectQuery : String := "CALL gds.graph.project"

/-- The body of `project_graph_in_gds` (lines 201-231): a best-effort
drop of the existing projection inside `try/except`, then the projection
call. -/
def project_graph_in_gds : List GdsStmt :=
  [GdsStmt.tryRun dropQuery, GdsStmt.run projectQuery]

/-- fnmatch-style matching as used by `Path.glob`: `*` matches any run of
characters (possibly empty), `?` matches one character, any other
character matches itself; "[...]" classes do not occur in the pattern
this code uses. -/
def globMatch : List Char → List Char → Bool
  | [], cs => cs.isEmpty
  | '*' :: ps, [] => globMatch ps []
  | '*' :: ps, c :: cs => globMatch ps (c :: cs) || globMatch ('*' :: ps) cs
  | '?' :: _, [] => false
  | '?' :: ps, _ :: cs => globMatch ps cs
  | _ :: _, [] => false
  | p :: ps, c :: cs => (p = c) && globMatch ps cs
termination_by p cs => (p.length, cs.length)

theorem globMatch_star {ps : List Char} : ∀ cs : List Char,
    globMatch ('*' :: ps) cs = true ↔ ∃ suf : List Char, suf <:+ cs ∧ globMatch ps suf = true := by
  intro cs
  induction cs with
  | nil =>
      rw [globMatch]
      constructor
      · intro h
        exact ⟨[], List.nil_suffix, h⟩
      · rintro ⟨suf, hsuf, hm⟩
        rw [List.suffix_nil.mp hsuf] at hm
        exact hm
  | cons c cs2 ih =>
      rw [globMatch]
      rw [Bool.or_eq_true]
      constructor
      · rintro (h | h)
        · exact ⟨c :: cs2, List.suffix_refl _, h⟩
        · rcases ih.mp h with ⟨suf, hsuf, hm⟩
          exact ⟨suf, hsuf.trans (List.suffix_cons c cs2), hm⟩
      · rintro ⟨suf, hsuf, hm⟩
        rcases List.suffix_cons_iff.mp hsuf with rfl | h2
        · exact Or.inl hm
        · exact Or.inr (ih.mpr ⟨suf, h2, hm⟩)

theorem globMatch_dotjson : ∀ cs : List Char,
    globMatch ['.', 'j', 's', 'o', 'n'] cs = true ↔ cs = ['.', 'j', 's', 'o', 'n'] := by
  intro cs
  match cs with
  | [] => simp [globMatch]
  | c1 :: t1 =>
      rw [globMatch] <;> try decide
      simp only [Bool.and_eq_true, decide_eq_true_eq]
      match t1 with
      | [] =>
          rw [globMatch] <;> try decide
          simp
      | c2 :: t2 =>
          rw [globMatch] <;> try decide
          simp only [Bool.and_eq_true, decide_eq_true_eq]
          match t2 with
          | [] =>
              rw [globMatch] <;> try decide
              simp
          | c3 :: t3 =>
              rw [globMatch] <;> try decide
              simp only [Bool.and_eq_true, decide_eq_true_eq]
              match t3 with
              | [] =>
                  rw [globMatch] <;> try decide
                  simp
              | c4 :: t4 =>
                  rw [globMatch] <;> try decide
                  simp only [Bool.and_eq_true, decide_eq_true_eq]
                  match t4 with
                  | [] =>
                      rw [globMatch] <;> try decide
                      simp
                  | c5 :: t5 =>
                      rw [globMatch] <;> try decide
                      rw [globMatch] <;> try decide
                      simp only [Bool.and_eq_true, decide_eq_true_eq, List.isEmpty_iff,
                        List.cons.injEq]
                      constructor
                      · rintro ⟨h1, h2, h3, h4, h5, h6⟩
                        exact ⟨h1.symm, h2.symm, h3.symm, h4.symm, h5.symm, h6⟩
                      · rintro ⟨h1, h2, h3, h4, h5, h6⟩
                        exact ⟨h1.symm, h2.symm, h3.symm, h4.symm, h5.symm, h6⟩

theorem globMatch_star_json (cs : List Char) :
    globMatch ("*.json".data) cs = true ↔ ['.', 'j', 's', 'o', 'n'] <:+ cs := by
  have h0 : "*.json".data = '*' :: ['.', 'j', 's', 'o', 'n'] := rfl
  rw [h0, globMatch_star]
  constructor
  · rintro ⟨suf, hsuf, hm⟩
    rw [(globMatch_dotjson suf).mp hm] at hsuf
    exact hsuf
  · intro h
    exact ⟨_, h, (globMatch_dotjson _).mpr rfl⟩

/-- Model of `data_directory.glob("*.json")` (pathlib, non-recursive):
directory contents are given as component lists of paths relative to the
directory; the glob selects, in listing order, exactly the
single-component entries whose name matches the pattern. -/
def dirGlob (pattern : String) (entries : List (List String)) : List (List String) :=
  entries.filter (fun e =>
    match e with
    | [name] => globMatch pattern.data name.data
    | _ => false)

/-- Model of `process_directory` (lines 312-320): one `process_file` task
per file matched by `glob("*.json")`, results gathered in task order. -/
def process_directory (entries : List (List String))
    (content : List String → Option Json) : List (Except String (List Intent)) :=
  (dirGlob "*.json" entries).map (fun e => process_file (content e))

/-- The spec example document: {"a": 1, "b": [2, 3]}. -/
def specDoc : Json :=
  Json.obj [("a", Json.prim (Prim.i 1)), ("b", Json.arr [Json.prim (Prim.i 2), Json.prim (Prim.i 3)])]

/-- Two sibling subtrees with identical entry shape: {"a": {"x": 1}, "b": {"x": 1}}. -/
def c1CexDoc : Json :=
  Json.obj [("a", Json.obj [("x", Json.prim (Prim.i 1))]),
            ("b", Json.obj [("x", Json.prim (Prim.i 1))])]

/-- A key "x" that is a primitive under one sibling and a container under
another: {"a": {"x": 1}, "b": {"x": {"q": 1}}}. -/
def c5CexDoc : Json :=
  Json.obj [("a", Json.obj [("x", Json.prim (Prim.i 1))]),
            ("b", Json.obj [("x", Json.obj [("q", Json.prim (Prim.i 1))])])]

/-- Two container siblings: {"a": {"x": 1}, "b": {"y": 2}}. -/
def lifoDoc : Json :=
  Json.obj [("a", Json.obj [("x", Json.prim (Prim.i 1))]),
            ("b", Json.obj [("y", Json.prim (Prim.i 2))])]

/-- A one-entry document: {"a": 1}. -/
def oneKeyDoc : Json := Json.obj [("a", Json.prim (Prim.i 1))]

/-- C1 as stated fails: for {"a": {"x": 1}, "b": {"x": 1}} (no duplicate
keys in any object), the two "x" entries share the identity
X{name: x, value: 1}, so the replayed store has four nodes while the
containment structure of the document has five positions, and no
isomorphism exists. -/
theorem c1_counterexample :
    ¬ IsoContainment c1CexDoc (applySeq emptyStore (processJsonIntents c1CexDoc)) := by
  rintro ⟨f, hbij, _, _⟩
  have hcard := Fintype.card_of_bijective hbij
  simp only [Fintype.card_fin] at hcard
  have h5 : (cNodes c1CexDoc).length = 5 := by decide
  have h4 : (applySeq emptyStore (processJsonIntents c1CexDoc)).nodes.length = 4 := by decide
  rw [h5, h4] at hcard
  exact absurd hcard (by decide)

/-- C1 (amended): for a document all of whose emitted node intents have
pairwise non-matching identities (no two containment positions share or
subsume each other as (label, properties) patterns), replaying the
emitted sequence against the empty store reconstructs a graph isomorphic
to the containment structure of the document, rooted at the Root node;
that containment structure is a tree: the root has no parent edge and
every other node has exactly one. -/
theorem c1_amended (v : Json) (hE : ExactTuples v) :
    IsoContainment v (applySeq emptyStore (processJsonIntents v)) ∧
      (∀ t ∈ cNodesFrom "Root" v, tcount t ((cEdges v).map Prod.snd) = 1) ∧
      tcount rootTuple ((cEdges v).map Prod.snd) = 0 := by
  have hnodup := (nodeTuples_processJson_perm v (exactTuples_container hE)).nodup_iff.mp
    (exactTuples_nodup hE)
  exact ⟨replay_iso v hE, cEdges_tree v hnodup⟩

instance exactTuplesDecidable (v : Json) : Decidable (ExactTuples v) := by
  unfold ExactTuples
  infer_instance

/-- Exact node identities hold for the document {"a": 1, "b": [2, 3]}
and under them the claim statement of C1 holds there. -/
theorem c1_witness :
    ExactTuples specDoc ∧
      (IsoContainment specDoc (applySeq emptyStore (processJsonIntents specDoc)) ∧
        (∀ t ∈ cNodesFrom "Root" specDoc, tcount t ((cEdges specDoc).map Prod.snd) = 1) ∧
        tcount rootTuple ((cEdges specDoc).map Prod.snd) = 0) :=
  ⟨by decide, c1_amended specDoc (by decide)⟩

/-- C2 evaluated at the failing input: for the document {"a": 1} with a
store that rejects every upsert, the first application (the Root node)
fails, yet the loop still issues the remaining node and relationship
upserts — the `future_safe` results of `create_node` and
`create_relationship` are discarded, so nothing aborts; and for every
outcome assignment the attempted sequence is the full emission. -/
theorem c2_failing_eval :
    documentAttempts (fun _ => false) oneKeyDoc =
      [(Intent.node "Root" [("name", Prim.s "root")], false),
       (Intent.node "A" [("name", Prim.s "a"), ("value", Prim.i 1)], false),
       (Intent.rel "Root" [("name", Prim.s "root")]
         "A" [("name", Prim.s "a"), ("value", Prim.i 1)] "HAS", false)] ∧
    (∀ outcome : Nat → Bool,
      (documentAttempts outcome oneKeyDoc).map Prod.fst = processJsonIntents oneKeyDoc) := by
  constructor
  · decide
  · intro outcome
    exact documentAttempts_ignore_outcomes outcome oneKeyDoc

/-- C3: for every document and every relationship intent in the emitted
sequence, node intents for both endpoints appear strictly earlier in the
sequence. -/
theorem c3_endpoints_earlier (v : Json) (l1 l2 : List Intent)
    (fl : String) (fp : Props) (tl : String) (tp : Props) (ty : String)
    (h : processJsonIntents v = l1 ++ Intent.rel fl fp tl tp ty :: l2) :
    Intent.node fl fp ∈ l1 ∧ Intent.node tl tp ∈ l1 := by
  have hok := seqOk_split l1 (processJsonIntents_seqOk v) h
  simpa [relOk] using hok

/-- Witness for C3 at {"a": 1}: the relationship is the third intent and
both endpoint node intents occur among the first two. -/
theorem c3_witness :
    Intent.node "Root" [("name", Prim.s "root")] ∈
      [Intent.node "Root" [("name", Prim.s "root")],
       Intent.node "A" [("name", Prim.s "a"), ("value", Prim.i 1)]] ∧
    Intent.node "A" [("name", Prim.s "a"), ("value", Prim.i 1)] ∈
      [Intent.node "Root" [("name", Prim.s "root")],
       Intent.node "A" [("name", Prim.s "a"), ("value", Prim.i 1)]] :=
  c3_endpoints_earlier oneKeyDoc
    [Intent.node "Root" [("name", Prim.s "root")],
     Intent.node "A" [("name", Prim.s "a"), ("value", Prim.i 1)]] []
    "Root" [("name", Prim.s "root")] "A" [("name", Prim.s "a"), ("value", Prim.i 1)] "HAS"
    (by decide)

/-- C4: ingestion returns one result per input document in input order;
if document k is the only malformed one, position k is the only failure,
every other position is a success, and each result depends only on its
own document. -/
theorem c4_isolation (docs : List (Option Json)) (k : Nat)
    (hmal : docs.get? k = some none)
    (hok : ∀ j d, docs.get? j = some d → j ≠ k → d ≠ none) :
    (gatherResults docs).length = docs.length ∧
    (gatherResults docs).get? k = some (Except.error "ParseError") ∧
    (∀ j d, docs.get? j = some d → j ≠ k →
      ∃ out, (gatherResults docs).get? j = some (Except.ok out)) ∧
    (∀ j d, docs.get? j = some d → (gatherResults docs).get? j = some (process_file d)) := by
  refine ⟨List.length_map _ _, ?_, ?_, ?_⟩
  · rw [gatherResults, List.get?_map, hmal]
    rfl
  · intro j d hj hjk
    rcases d with _ | j0
    · exact absurd rfl (hok j none hj hjk)
    · refine ⟨processJsonIntents j0, ?_⟩
      rw [gatherResults, List.get?_map, hj]
      rfl
  · intro j d hj
    rw [gatherResults, List.get?_map, hj]
    rfl

/-- Witness for C4: a batch of three documents whose middle document is
malformed yields three results with the only failure in the middle. -/
theorem c4_witness :
    (gatherResults [some oneKeyDoc, none, some (Json.obj [])]).length = 3 ∧
    (gatherResults [some oneKeyDoc, none, some (Json.obj [])]).get? 1
      = some (Except.error "ParseError") := by
  have hok : ∀ j (d : Option Json), [some oneKeyDoc, none, some (Json.obj [])].get? j = some d →
      j ≠ 1 → d ≠ none := by
    intro j d hj hjk hc
    rw [hc] at hj
    match j, hj with
    | 0, hj => exact Option.noConfusion (Option.some.inj hj)
    | 1, _ => exact hjk rfl
    | 2, hj => exact Option.noConfusion (Option.some.inj hj)
    | n + 3, hj => exact Option.noConfusion hj
  have h := c4_isolation [some oneKeyDoc, none, some (Json.obj [])] 1 rfl hok
  exact ⟨h.1, h.2.1⟩

/-- A document whose node tuples never match one another under the
subset semantics of MERGE unless equal: re-running such a document
matches exactly the nodes it created. -/
def NoSubsumedTuples (v : Json) : Prop :=
  ∀ t1 ∈ nodeTuples (processJsonIntents v), ∀ t2 ∈ nodeTuples (processJsonIntents v),
    nodeMatches t1 t2 = true → t1 = t2

instance noSubsumedDecidable (v : Json) : Decidable (NoSubsumedTuples v) := by
  unfold NoSubsumedTuples
  infer_instance

/-- C5 counterexample: for the document
{"a": {"x": 1}, "b": {"x": {"q": 1}}} a second run of `process_json`
does not leave the store unchanged — the subset semantics of MERGE lets
the tuple (X, [name=x]) of the second run match the richer node
(X, [name=x, value=1]) created by the first run, rerouting a
relationship. -/
theorem c5_counterexample :
    applySeq (applySeq emptyStore (processJsonIntents c5CexDoc)) (processJsonIntents c5CexDoc)
      ≠ applySeq emptyStore (processJsonIntents c5CexDoc) := by
  decide

/-- C5 amended: if no emitted node tuple subset-matches a different
emitted node tuple, then re-processing the same document is a no-op on
the store. -/
theorem c5_amended (v : Json) (hE : NoSubsumedTuples v) :
    applySeq (applySeq emptyStore (processJsonIntents v)) (processJsonIntents v)
      = applySeq emptyStore (processJsonIntents v) :=
  replay_idempotent (processJsonIntents v) hE (processJson_wellFormed v)
    (processJsonIntents_seqOk v)

/-- Witness for C5 at the document {"a": 1, "b": [2, 3]}. -/
theorem c5_witness :
    NoSubsumedTuples specDoc ∧
    applySeq (applySeq emptyStore (processJsonIntents specDoc)) (processJsonIntents specDoc)
      = applySeq emptyStore (processJsonIntents specDoc) :=
  ⟨by decide, c5_amended specDoc (by decide)⟩

/-- C6 counterexample: for the primitive document 42 the claimed final
state — a single Root node carrying the value and no relationships — is
false: the store holds TWO Root nodes, because the bare Root node
emitted up front does not subset-match the enriched tuple
(Root, [name=root, value=42]) emitted by the defensive primitive branch. -/
theorem c6_counterexample :
    ¬ ((applySeq emptyStore (processJsonIntents (Json.prim (Prim.i 42)))).nodes
        = [("Root", [("name", Prim.s "root"), ("value", Prim.i 42)])] ∧
       relTuples (processJsonIntents (Json.prim (Prim.i 42))) = []) := by
  decide

/-- C6 amended: on a top-level primitive the pipeline emits the bare
Root node followed by a Root node enriched with the value; the store
ends with both Root nodes, and no relationship is ever emitted. -/
theorem c6_amended :
    processJsonIntents (Json.prim (Prim.i 42))
      = [Intent.node "Root" [("name", Prim.s "root")],
         Intent.node "Root" [("name", Prim.s "root"), ("value", Prim.i 42)]] ∧
    (applySeq emptyStore (processJsonIntents (Json.prim (Prim.i 42)))).nodes
      = [("Root", [("name", Prim.s "root")]),
         ("Root", [("name", Prim.s "root"), ("value", Prim.i 42)])] ∧
    (applySeq emptyStore (processJsonIntents (Json.prim (Prim.i 42)))).edges = [] ∧
    relTuples (processJsonIntents (Json.prim (Prim.i 42))) = [] := by
  decide

/-- C7 counterexample: emission is NOT in document order. For the
document {"a": {"x": 1}, "b": {"y": 2}} the LIFO stack expands the
subtree of the LAST sibling first, so the emitted sequence differs from
the document-order sequence the spec describes. -/
theorem c7_counterexample :
    ¬ (∀ v : Json, processJsonIntents v = documentOrderEmission v) := by
  intro h
  exact absurd (h lifoDoc) (by decide)

/-- C7 amended: the emission is the Root node followed by a recursive
traversal in which the entries of each single level are visited in
document order, but the pending SUBTREES of a level are expanded in
reverse order (LIFO), each subtree contiguously. -/
theorem c7_amended :
    (∀ v : Json, processJsonIntents v
        = Intent.node "Root" rootProperties :: emitFrame ⟨"Root", rootProperties, none, v⟩) ∧
    (∀ f : Frame, emitFrame f
        = frameImm f ++ ((frameChildren f).reverse.map emitFrame).flatten) :=
  ⟨processJsonIntents_eq, emitFrame_def⟩

/-- The ordering the spec asserts: every non-Root node intent is
preceded somewhere earlier in the sequence by a relationship intent
pointing at it. -/
def C8Preceding : Prop :=
  ∀ (v : Json) (i : Nat) (l : String) (p : Props),
    (processJsonIntents v).get? i = some (Intent.node l p) → (l, p) ≠ rootTuple →
    ∃ j, j < i ∧ ∃ fl fp ty, (processJsonIntents v).get? j = some (Intent.rel fl fp l p ty)

/-- C8 counterexample: in the emission for {"a": 1} the node intent for
A sits at position 1 and the only earlier intent (position 0) is the
Root NODE intent — the relationship pointing at A comes only AFTER the
node, at position 2, so no relationship precedes the node. -/
theorem c8_counterexample : ¬ C8Preceding := by
  intro h
  obtain ⟨j, hj, fl, fp, ty, hget⟩ :=
    h oneKeyDoc 1 "A" [("name", Prim.s "a"), ("value", Prim.i 1)] (by decide) (by decide)
  match j, hj with
  | 0, _ =>
      have h0 : (processJsonIntents oneKeyDoc).get? 0
          = some (Intent.node "Root" [("name", Prim.s "root")]) := by decide
      rw [h0] at hget
      exact Intent.noConfusion (Option.some.inj hget)
  | n + 1, hj => omega

/-- C8 amended: for every non-primitive document, each relationship
intent is immediately PRECEDED by the node intent of its target, and
each node intent after position 0 is immediately FOLLOWED by the
relationship intent that connects it to its parent — a containment edge
of the document. -/
theorem c8_amended (v : Json) (hv : is_primitive v = false) :
    (∀ (j : Nat) (fl : String) (fp : Props) (tl : String) (tp : Props) (ty : String),
       (processJsonIntents v).get? j = some (Intent.rel fl fp tl tp ty) →
       ∃ j0, j = j0 + 1 ∧ (processJsonIntents v).get? j0 = some (Intent.node tl tp)) ∧
    (∀ (i : Nat) (l : String) (p : Props),
       (processJsonIntents v).get? (i + 1) = some (Intent.node l p) →
       ∃ fl fp ty, (processJsonIntents v).get? (i + 2) = some (Intent.rel fl fp l p ty) ∧
         ((fl, fp), (l, p)) ∈ cEdges v) := by
  obtain ⟨L, hL, hP⟩ := processJsonIntents_paired v hv
  constructor
  · intro j fl fp tl tp ty hget
    rw [hL] at hget
    match j, hget with
    | 0, hget => exact Intent.noConfusion (Option.some.inj hget)
    | j1 + 1, hget =>
        rw [List.get?_cons_succ] at hget
        obtain ⟨j0, hj0eq, hj0⟩ := pairedSeq_rel_preceded hP j1 fl fp tl tp ty hget
        refine ⟨j0 + 1, by omega, ?_⟩
        rw [hL, List.get?_cons_succ]
        exact hj0
  · intro i l p hget
    rw [hL, List.get?_cons_succ] at hget
    obtain ⟨fl, fp, ty, hrel⟩ := pairedSeq_node_followed hP i l p hget
    refine ⟨fl, fp, ty, ?_, ?_⟩
    · rw [hL]
      exact hrel
    · have hmem : Intent.rel fl fp l p ty ∈ processJsonIntents v := by
        rw [hL]
        exact List.mem_cons_of_mem _ (List.get?_mem hrel)
      exact (relPairs_processJson_perm v).mem_iff.mp (mem_relPairs_of_rel hmem)

/-- Witness for C8 at the document {"a": 1, "b": [2, 3]}: the
relationship at position 2 is immediately preceded by its target node at
position 1. -/
theorem c8_witness :
    is_primitive specDoc = false ∧
    (∃ j0, (2 : Nat) = j0 + 1 ∧ (processJsonIntents specDoc).get? j0
        = some (Intent.node "A" [("name", Prim.s "a"), ("value", Prim.i 1)])) :=
  ⟨by decide,
   (c8_amended specDoc (by decide)).1 2 "Root" rootProperties
     "A" [("name", Prim.s "a"), ("value", Prim.i 1)] "HAS" (by decide)⟩

/-- C9: the GDS projection routine always issues the drop query first
and the project query second, regardless of which queries the session
fails — the drop is wrapped in try/except so its failure never aborts —
and the routine as a whole succeeds exactly when the projection call
succeeds. -/
theorem c9_gds (failing : String → Bool) :
    (execScript failing project_graph_in_gds).1 = [dropQuery, projectQuery] ∧
    ((execScript failing project_graph_in_gds).2 = Except.ok ()
      ↔ failing projectQuery = false) := by
  by_cases hp : failing projectQuery
  · constructor <;> simp [execScript, project_graph_in_gds, hp]
  · constructor <;> simp [execScript, project_graph_in_gds, hp]

/-- C10: directory processing selects exactly the directory entries that
are plain files whose name ends in ".json" — recursing into nothing,
since `glob` with a component-free pattern matches only direct children —
and launches one ingestion task per selected file. -/
theorem c10_directory (entries : List (List String)) (content : List String → Option Json) :
    (∀ e, e ∈ dirGlob "*.json" entries ↔
      e ∈ entries ∧ ∃ name, e = [name] ∧ ['.', 'j', 's', 'o', 'n'] <:+ name.data) ∧
    (process_directory entries content).length = (dirGlob "*.json" entries).length := by
  constructor
  · intro e
    rw [dirGlob, List.mem_filter]
    constructor
    · rintro ⟨hmem, hpred⟩
      refine ⟨hmem, ?_⟩
      match e, hpred with
      | [name], hpred =>
          exact ⟨name, rfl, (globMatch_star_json name.data).mp (by simpa using hpred)⟩
    · rintro ⟨hmem, name, rfl, hsuf⟩
      exact ⟨hmem, by simpa using (globMatch_star_json name.data).mpr hsuf⟩
  · exact List.length_map _ _
